import Mathlib

set_option maxHeartbeats 1000000

/-!
Shallow embedding of the sileo toast library.

The React and Vue adapters (`src/react/toaster.tsx`, `src/vue/toaster.ts`)
implement the same logic line for line; each adapter definition below embeds
both.  The per-toast visual state machine is embedded from `src/vue/sileo.ts`.
The framework-agnostic store (`src/core/store.ts`) is imported by the
adapters but absent from the sources; definitions taken from it are modelled
from the specification and say so in their doc comments.
-/

namespace Sileo

/-! ## Data model (`src/core/types.ts` and the store's toast entity) -/

/-- `SileoState` from `src/core/types.ts`. -/
inductive SileoState
  | success
  | loading
  | error
  | warning
  | info
  | action
deriving DecidableEq, Repr

/-- Modelled from the spec: the store-owned toast entity (`SileoItem` of the
missing `src/core/store.ts`): stable `id`, `instanceId` bumped on in-place
content replacement, resolved options, and the `exiting` flag.  Renderable
fields that no claim depends on (icon, styles, fill, roundness, position) are
elided; `description` is kept as an optional string standing for arbitrary
renderable content and `hasButton` records presence of a button. -/
structure SileoItem where
  id : Nat
  instanceId : Nat
  state : SileoState
  title : Option String
  description : Option String
  hasButton : Bool
  duration : Option Int
  exiting : Bool
  autoExpandDelayMs : Option Int
  autoCollapseDelayMs : Option Int
deriving DecidableEq, Repr

/-! ## Store (modelled from the spec; `src/core/store.ts` is not in the sources) -/

/-- Modelled from the spec: the content payload of a `show`/`promise`
settlement call, already resolved against the process-wide defaults
(resolution happens at show time and no claim depends on the merge itself). -/
structure ShowOptions where
  state : SileoState
  title : Option String
  description : Option String
  hasButton : Bool
  duration : Option Int
  autoExpandDelayMs : Option Int
  autoCollapseDelayMs : Option Int
deriving DecidableEq, Repr

/-- Modelled from the spec: the store is a singleton holding the ordered toast
list; `nextId` is the id counter backing "assigns a new id". -/
structure StoreState where
  toasts : List SileoItem
  nextId : Nat
deriving DecidableEq, Repr

def emptyStore : StoreState := { toasts := [], nextId := 0 }

/-- Modelled from the spec: a freshly shown toast (`exiting = false`,
first content instance). -/
def mkToast (o : ShowOptions) (id : Nat) : SileoItem :=
  { id := id
    instanceId := 0
    state := o.state
    title := o.title
    description := o.description
    hasButton := o.hasButton
    duration := o.duration
    exiting := false
    autoExpandDelayMs := o.autoExpandDelayMs
    autoCollapseDelayMs := o.autoCollapseDelayMs }

/-- Modelled from the spec: `show(options) -> id` assigns a new id, inserts at
the end of the ordered toast list and returns the id. -/
def showToast (o : ShowOptions) (s : StoreState) : StoreState × Nat :=
  ({ toasts := s.toasts ++ [mkToast o s.nextId], nextId := s.nextId + 1 }, s.nextId)

/-- Modelled from the spec: `dismiss(id)` marks the toast `exiting = true` if
present and not already exiting; unknown ids are silently ignored. -/
def dismissToast (id : Nat) (s : StoreState) : StoreState :=
  { s with
    toasts := s.toasts.map fun t =>
      if t.id == id && !t.exiting then { t with exiting := true } else t }

/-- Modelled from the spec: `dismiss()` with no id marks every toast exiting. -/
def dismissAllToasts (s : StoreState) : StoreState :=
  { s with toasts := s.toasts.map fun t => { t with exiting := true } }

/-- Modelled from the spec: `clear()` immediately removes all toasts. -/
def clearStore (s : StoreState) : StoreState :=
  { s with toasts := [] }

/-- Modelled from the spec: a settled `promise()` replaces the loading toast's
content in place (same id, bumped `instanceId`) with the resolved success or
error projection — suppressed if the toast was already dismissed (exiting)
or removed. -/
def settleToast (id : Nat) (o : ShowOptions) (s : StoreState) : StoreState :=
  { s with
    toasts := s.toasts.map fun t =>
      if t.id == id && !t.exiting then
        { t with
          state := o.state
          title := o.title
          description := o.description
          hasButton := o.hasButton
          duration := o.duration
          autoExpandDelayMs := o.autoExpandDelayMs
          autoCollapseDelayMs := o.autoCollapseDelayMs
          instanceId := t.instanceId + 1 }
      else t }

/-- Modelled from the spec: exit-animation completion removes the toast from
the store's list. -/
def removeToast (id : Nat) (s : StoreState) : StoreState :=
  { s with toasts := s.toasts.filter fun t => t.id != id }

/-- Modelled from the spec: the store's imperative operations.  `showOp`
embeds `show` (a Lean keyword); the convenience wrappers (`success`,
`error`, `warning`, `info`, `action`) are `show` with the state fixed. -/
inductive StoreOp
  | showOp (o : ShowOptions)
  | success (o : ShowOptions)
  | error (o : ShowOptions)
  | warning (o : ShowOptions)
  | info (o : ShowOptions)
  | action (o : ShowOptions)
  | dismissId (id : Nat)
  | dismissAll
  | clear
  | settle (id : Nat) (o : ShowOptions)
  | remove (id : Nat)
deriving DecidableEq, Repr

/-- Apply one store operation; the second component is the id returned to the
caller (`show` and the convenience wrappers return one). -/
def applyOp : StoreOp → StoreState → StoreState × Option Nat
  | .showOp o, s => let r := showToast o s; (r.1, some r.2)
  | .success o, s => let r := showToast { o with state := .success } s; (r.1, some r.2)
  | .error o, s => let r := showToast { o with state := .error } s; (r.1, some r.2)
  | .warning o, s => let r := showToast { o with state := .warning } s; (r.1, some r.2)
  | .info o, s => let r := showToast { o with state := .info } s; (r.1, some r.2)
  | .action o, s => let r := showToast { o with state := .action } s; (r.1, some r.2)
  | .dismissId i, s => (dismissToast i s, none)
  | .dismissAll, s => (dismissAllToasts s, none)
  | .clear, s => (clearStore s, none)
  | .settle i o, s => (settleToast i o s, none)
  | .remove i, s => (removeToast i s, none)

/-- Run a sequence of store operations, collecting the ids returned. -/
def runStore : StoreState → List StoreOp → StoreState × List Nat
  | s, [] => (s, [])
  | s, op :: ops =>
    let r := applyOp op s
    let rest := runStore r.1 ops
    (rest.1, r.2.toList ++ rest.2)

/-- Store invariant: every tracked toast's id is below the id counter, so a
fresh id is never an id currently in the list. -/
def GoodStore (s : StoreState) : Prop :=
  ∀ t ∈ s.toasts, t.id < s.nextId

/-- A toast id counts as dismissed: it was allocated, and every tracked toast
carrying it is exiting. -/
def Dismissed (id : Nat) (s : StoreState) : Prop :=
  id < s.nextId ∧ ∀ t ∈ s.toasts, t.id = id → t.exiting = true

/-! ## View adapter (`src/react/toaster.tsx` lines 41-262 and
`src/vue/toaster.ts` lines 34-273 — the two are line-for-line analogous;
one embedding covers both) -/

/-- Modelled from the spec: `timeoutKey` of the missing `src/core/store.ts`
is "a composite key of id + instanceId, so replacing content resets the
timer". -/
def timeoutKey (t : SileoItem) : Nat × Nat := (t.id, t.instanceId)

/-- Modelled from the spec: `DEFAULT_DURATION` of the missing
`src/core/store.ts`, the fallback the adapters apply to a nullish duration
(`item.duration ?? DEFAULT_DURATION`).  The spec states that duration `null`
or ≤ 0 means "never auto-dismiss", which the adapters' `schedule` satisfies
only when this fallback is itself the never-expire sentinel, so it is
modelled as `none`. -/
def DEFAULT_DURATION : Option Int := none

/-- `const dur = item.duration ?? DEFAULT_DURATION` in `schedule`. -/
def resolvedDur (t : SileoItem) : Option Int :=
  t.duration.orElse fun _ => DEFAULT_DURATION

/-- One armed `window.setTimeout(() => dismissToast(item.id), dur)`: the
event loop fires it no earlier than `scheduledAt + dur`. -/
structure TimerEntry where
  key : Nat × Nat
  scheduledAt : Nat
  dur : Nat
deriving DecidableEq, Repr

/-- `timersRef.current.has(key)` / `timers.has(key)`. -/
def hasKey (timers : List TimerEntry) (k : Nat × Nat) : Bool :=
  timers.any fun e => e.key == k

/-- Body of the `for` loop of `schedule`: skip exiting toasts, keys that
already have a timer, and null or non-positive durations; otherwise arm a
timer for the full duration. -/
def scheduleStep (now : Nat) (acc : List TimerEntry) (item : SileoItem) :
    List TimerEntry :=
  if item.exiting then acc
  else if hasKey acc (timeoutKey item) then acc
  else
    match resolvedDur item with
    | none => acc
    | some d => if d ≤ 0 then acc else acc ++ [⟨timeoutKey item, now, d.toNat⟩]

/-- The `for` loop of `schedule` over the current items. -/
def scheduleItems (now : Nat) (items : List SileoItem) (timers : List TimerEntry) :
    List TimerEntry :=
  items.foldl (scheduleStep now) timers

/-- The duration with which `schedule` would arm a timer for a toast: `none`
for exiting toasts, null durations and non-positive durations. -/
def eligDur (t : SileoItem) : Option Int :=
  if t.exiting then none
  else
    match resolvedDur t with
    | none => none
    | some d => if d ≤ 0 then none else some d

/-- One rendered toast: the store item together with the `isExpanded` flag
owned by its `Sileo` component instance. -/
structure Vm where
  item : SileoItem
  isExpanded : Bool
deriving DecidableEq, Repr

/-- `hasDesc` of `src/vue/sileo.ts` for a rendered toast (the adapter-level
model identifies the applied view with the current store item; the deferred
swap of the view is modelled separately at the component level). -/
def vmHasDesc (vm : Vm) : Bool :=
  vm.item.description.isSome || vm.item.hasButton

/-- The `canExpand` prop computed by both toasters:
`activeId === undefined || activeId === item.id`. -/
def canExpand (activeId : Option Nat) (id : Nat) : Bool :=
  activeId.isNone || activeId == some id

/-- `allowExpand` of `src/vue/sileo.ts` (lines 166-172): a loading toast
never expands, otherwise the renderer's `canExpand` signal decides (the
`interruptKey` fallback is dead code here because both toasters always
supply `canExpand`). -/
def allowExpand (activeId : Option Nat) (vm : Vm) : Bool :=
  !(vm.item.state == SileoState.loading) && canExpand activeId vm.item.id

/-- `open` of `src/vue/sileo.ts` at the adapter level: expandable content,
expanded, and not loading. -/
def vmOpen (vm : Vm) : Bool :=
  vmHasDesc vm && vm.isExpanded && !(vm.item.state == SileoState.loading)

/-- The auto expand/collapse watch body of `src/vue/sileo.ts` (lines
402-446) with the delay timers abstracted into separate events: a toast
without expandable content is left alone, an exiting or not-allowed toast is
collapsed, a toast with no autopilot delays keeps its state, a positive
expand delay arms a timer (the `autoExpandFire` event) and a zero delay
expands immediately.  The model re-applies this body to every rendered toast
after each event; Vue fires it exactly when one of its inputs changes, and
the body is a function of those current inputs, so the re-application covers
every firing the dependency system performs. -/
def watchVm (activeId : Option Nat) (vm : Vm) : Vm :=
  if !(vmHasDesc vm) then vm
  else if vm.item.exiting || !(allowExpand activeId vm) then { vm with isExpanded := false }
  else if vm.item.autoExpandDelayMs.isNone && vm.item.autoCollapseDelayMs.isNone then vm
  else if vm.item.autoExpandDelayMs.getD 0 > 0 then vm
  else { vm with isExpanded := true }

/-- Adapter-local state: the hover flag, the timer map, the rendered toasts
with their expansion flags, and the active/latest tracking refs.  `mounted`
models the store subscription and the mounted DOM handlers. -/
structure ToasterState where
  mounted : Bool
  hovering : Bool
  timers : List TimerEntry
  vms : List Vm
  latestId : Option Nat
  activeId : Option Nat
deriving DecidableEq, Repr

def initToaster : ToasterState :=
  { mounted := true, hovering := false, timers := [], vms := [],
    latestId := none, activeId := none }

/-- The `latest` memo/computed: walk the list from the end and return the
first non-exiting id — the most recently created non-exiting toast. -/
def latestNonExiting : List SileoItem → Option Nat
  | [] => none
  | t :: ts =>
    (latestNonExiting ts).orElse fun _ => if t.exiting then none else some t.id

/-- The watch on `latest`: when the computed latest id changes, both the
stored `latestRef` and `activeId` are set to it. -/
def syncLatest (s : ToasterState) : ToasterState :=
  let l := latestNonExiting (s.vms.map Vm.item)
  if l == s.latestId then s else { s with latestId := l, activeId := l }

/-- Re-apply the per-toast watch body to every rendered toast. -/
def watchPass (s : ToasterState) : ToasterState :=
  { s with vms := s.vms.map (watchVm s.activeId) }

/-- `schedule(items)`: returns immediately while hovering, else arms timers
for the eligible items. -/
def schedule (now : Nat) (items : List SileoItem) (s : ToasterState) : ToasterState :=
  if s.hovering then s
  else { s with timers := scheduleItems now items s.timers }

/-- The new rendered-toast list after a store notification: each item keeps
the expansion flag of the component instance already mounted for its id, and
new ids mount collapsed. -/
def updateVms (old : List Vm) (items : List SileoItem) : List Vm :=
  items.map fun i =>
    { item := i
      isExpanded := (((old.find? fun vm => vm.item.id == i.id).map Vm.isExpanded).getD false) }

/-- The subscription listener plus the watch on `toasts` (React lines
102-118, Vue lines 118-131): adopt the new list, clear timers whose key is
no longer present, and re-run `schedule`. -/
def stepUpdate (now : Nat) (items : List SileoItem) (s : ToasterState) : ToasterState :=
  let s1 := { s with vms := updateVms s.vms items }
  let keys := items.map timeoutKey
  let s2 := { s1 with timers := s1.timers.filter fun e => keys.contains e.key }
  schedule now items s2

/-- Mouse-enter on a rendered toast (the memoized `enter` handler followed by
the component's `handleEnter`): make it active, clear all timers on the
hover edge, and expand it when it has expandable content. -/
def stepEnter (id : Nat) (s : ToasterState) : ToasterState :=
  if s.vms.any fun vm => vm.item.id == id then
    let s1 := { s with activeId := some id }
    let s2 := if s1.hovering then s1 else { s1 with hovering := true, timers := [] }
    { s2 with
      vms := s2.vms.map fun vm =>
        if vm.item.id == id && vmHasDesc vm then { vm with isExpanded := true } else vm }
  else s

/-- Mouse-leave on a rendered toast (the memoized `leave` handler followed by
the component's `handleLeave`): revert active to the latest toast,
re-schedule the current list on the hover exit edge, and collapse the left
toast. -/
def stepLeave (now : Nat) (id : Nat) (s : ToasterState) : ToasterState :=
  if s.vms.any fun vm => vm.item.id == id then
    let s1 := { s with activeId := s.latestId }
    let s2 :=
      if s1.hovering then schedule now (s1.vms.map Vm.item) { s1 with hovering := false }
      else s1
    { s2 with
      vms := s2.vms.map fun vm =>
        if vm.item.id == id then { vm with isExpanded := false } else vm }
  else s

/-- An armed timer may fire at `now` only once its deadline has passed. -/
def fireEnabled (now : Nat) (k : Nat × Nat) (s : ToasterState) : Bool :=
  s.timers.any fun e => e.key == k && e.scheduledAt + e.dur ≤ now

/-- A pending auto-expand timer firing for toast `id`: it can only still be
armed if none of the watch inputs changed since it was armed (any change
re-runs the watch, which clears it first), so its effect is guarded by the
arming conditions. -/
def stepAutoExpandFire (id : Nat) (s : ToasterState) : ToasterState :=
  { s with
    vms := s.vms.map fun vm =>
      if vm.item.id == id && vmHasDesc vm && !vm.item.exiting
          && allowExpand s.activeId vm && vm.item.autoExpandDelayMs.getD 0 > 0 then
        { vm with isExpanded := true }
      else vm }

/-- A pending auto-collapse timer firing for toast `id`. -/
def stepAutoCollapseFire (id : Nat) (s : ToasterState) : ToasterState :=
  { s with
    vms := s.vms.map fun vm =>
      if vm.item.id == id then { vm with isExpanded := false } else vm }

/-- The unmount cleanup (React lines 96-99, Vue lines 111-114): remove the
store listener and clear every pending timer. -/
def stepUnmount (s : ToasterState) : ToasterState :=
  { s with mounted := false, timers := [] }

/-- Adapter events.  `fireTimer` is an armed auto-dismiss timeout firing; its
callback requests dismissal from the store, which flows back as a later
`update`. -/
inductive TEvent
  | update (items : List SileoItem)
  | enter (id : Nat)
  | leave (id : Nat)
  | fireTimer (k : Nat × Nat)
  | autoExpandFire (id : Nat)
  | autoCollapseFire (id : Nat)
  | unmount
deriving DecidableEq, Repr

/-- Process one timestamped adapter event; the second component lists the
dismissal requests `(time, key)` emitted to the store.  After each event the
derived `latest` watch and the per-toast watch bodies are flushed, matching
the synchronous settling of one event-loop turn. -/
def stepToaster (now : Nat) (ev : TEvent) (s : ToasterState) :
    ToasterState × List (Nat × (Nat × Nat)) :=
  if !s.mounted then (s, [])
  else
    match ev with
    | .update items => (watchPass (syncLatest (stepUpdate now items s)), [])
    | .enter id => (watchPass (syncLatest (stepEnter id s)), [])
    | .leave id => (watchPass (syncLatest (stepLeave now id s)), [])
    | .fireTimer k =>
      if fireEnabled now k s then (watchPass (syncLatest s), [(now, k)])
      else (watchPass (syncLatest s), [])
    | .autoExpandFire id => (watchPass (syncLatest (stepAutoExpandFire id s)), [])
    | .autoCollapseFire id => (watchPass (syncLatest (stepAutoCollapseFire id s)), [])
    | .unmount => (stepUnmount s, [])

/-- Run a timestamped event trace, collecting emitted dismissal requests. -/
def runToaster : ToasterState → List (Nat × TEvent) →
    ToasterState × List (Nat × (Nat × Nat))
  | s, [] => (s, [])
  | s, (now, ev) :: tr =>
    let r := stepToaster now ev s
    let rest := runToaster r.1 tr
    (rest.1, r.2 ++ rest.2)

/-- Adapter-state predicate for C1: no timer is armed for key `k` and no
rendered toast with key `k` is auto-dismiss eligible. -/
def NoTimerKey (k : Nat × Nat) (s : ToasterState) : Prop :=
  hasKey s.timers k = false
  ∧ ∀ vm ∈ s.vms, timeoutKey vm.item = k → eligDur vm.item = none

/-- Every `update` event of the trace carries only ineligible items for key
`k` (exiting, or duration null or non-positive). -/
def NeverEligibleInTrace (k : Nat × Nat) (tr : List (Nat × TEvent)) : Prop :=
  ∀ p ∈ tr, ∀ items, p.2 = TEvent.update items →
    ∀ i ∈ items, timeoutKey i = k → eligDur i = none

/-- C4 invariant: while the pointer hovers, the timer map is empty. -/
def HoverCleared (s : ToasterState) : Prop :=
  s.hovering = true → s.timers = []

/-- C6 invariant: an absent active id implies an absent latest id. -/
def ActiveNoneInv (s : ToasterState) : Prop :=
  s.activeId = none → s.latestId = none

/-- C6 invariant: the stored latest id is the computed one. -/
def LatestInv (s : ToasterState) : Prop :=
  s.latestId = latestNonExiting (s.vms.map Vm.item)

/-- C6 invariant: rendered toast ids are pairwise distinct. -/
def VmIdsNodup (s : ToasterState) : Prop :=
  (s.vms.map fun vm => vm.item.id).Nodup

/-- C6 invariant: an open toast is the active one. -/
def OpenActiveInv (s : ToasterState) : Prop :=
  ∀ vm ∈ s.vms, vmOpen vm = true → s.activeId = some vm.item.id

/-! ## Toast visual state machine (`src/vue/sileo.ts`) -/

/-- Config constants of `src/vue/sileo.ts` lines 26-33 (`minExpandRatio`
embeds `MIN_EXPAND_RATIO`). -/
def HEIGHT : ℚ := 40

def minExpandRatio : ℚ := 2.25

def SWAP_COLLAPSE_MS : Nat := 200

def HEADER_EXIT_MS : Nat := 150

/-- The `View` record (lines 37-45): the content snapshot applied to the
rendered card.  Purely renderable fields (icon, styles, fill) are elided;
`hasButton` records presence of the button. -/
structure View where
  title : Option String
  description : Option String
  state : SileoState
  hasButton : Bool
deriving DecidableEq, Repr

/-- `hasDesc` (lines 159-161) over a view. -/
def hasDescView (v : View) : Bool :=
  v.description.isSome || v.hasButton

/-- Component state of one `Sileo` instance: the applied view, the expansion
flag, the refresh bookkeeping, and one flag per owned timer, observer and
animation frame (armed = outstanding). -/
structure SileoVmState where
  mounted : Bool
  view : View
  isExpanded : Bool
  applied : Option Nat
  lastRefreshKey : Option Nat
  pendingView : Option (Nat × View)
  swapTimer : Bool
  headerExitTimer : Bool
  autoExpandTimer : Bool
  autoCollapseTimer : Bool
  pillObserver : Bool
  contentObserver : Bool
  pillRaf : Bool
  contentRaf : Bool
  contentHeight : ℚ
  frozenExpanded : ℚ
deriving DecidableEq, Repr

/-- `open` (lines 163-165): expandable content, expanded, not loading. -/
def openOf (s : SileoVmState) : Bool :=
  hasDescView s.view && s.isExpanded && !(s.view.state == SileoState.loading)

/-- The refresh watch (lines 360-398): with no refresh key the new content is
adopted directly; an unchanged key is a no-op; a changed key clears any
pending swap timer and then either defers the new content behind a collapse
(when the card is open: stash it in `pendingView`, drop `isExpanded`, arm the
fallback swap timer) or applies it immediately (when collapsed). -/
def refreshWatch (refreshKey : Option Nat) (next : View) (s : SileoVmState) :
    SileoVmState :=
  match refreshKey with
  | none =>
    { s with view := next, applied := none, pendingView := none, lastRefreshKey := none }
  | some k =>
    if s.lastRefreshKey == some k then s
    else
      let wasOpen := openOf s
      let s1 := { s with lastRefreshKey := some k, swapTimer := false }
      if wasOpen then
        { s1 with pendingView := some (k, next), isExpanded := false, swapTimer := true }
      else
        { s1 with pendingView := none, view := next, applied := some k }

/-- The swap fallback timer firing (lines 385-391): apply the pending view if
one is still stashed. -/
def swapFireStep (s : SileoVmState) : SileoVmState :=
  if !s.swapTimer then s
  else
    let s1 := { s with swapTimer := false }
    match s1.pendingView with
    | none => s1
    | some p => { s1 with view := p.2, applied := some p.1, pendingView := none }

/-- `handleTransitionEnd` (lines 491-502): only `height`/`transform`
transitions count, only while not open, and only with a pending view; then
the fallback timer is cancelled and the pending view applied. -/
def transitionEndStep (propName : String) (s : SileoVmState) : SileoVmState :=
  if propName != "height" && propName != "transform" then s
  else if openOf s then s
  else
    match s.pendingView with
    | none => s
    | some p =>
      { s with swapTimer := false, view := p.2, applied := some p.1, pendingView := none }

/-- The auto expand/collapse watch body (lines 402-446), with the inputs that
are props (`exiting`, `allowExpand`, the autopilot delays) passed in: both
timers are cleared first; without expandable content nothing else happens; an
exiting or not-allowed toast collapses; absent autopilot delays nothing
happens; a positive expand delay arms the expand timer while a zero delay
expands at once, and a positive collapse delay arms the collapse timer. -/
def autoWatchBody (exiting allowExp : Bool) (expandDelay collapseDelay : Option Int)
    (s : SileoVmState) : SileoVmState :=
  let s1 := { s with autoExpandTimer := false, autoCollapseTimer := false }
  if !hasDescView s1.view then s1
  else if exiting || !allowExp then { s1 with isExpanded := false }
  else if expandDelay.isNone && collapseDelay.isNone then s1
  else
    let s2 :=
      if expandDelay.getD 0 > 0 then { s1 with autoExpandTimer := true }
      else { s1 with isExpanded := true }
    if collapseDelay.getD 0 > 0 then { s2 with autoCollapseTimer := true } else s2

/-- `onUnmounted` (lines 523-536): disconnect both observers and cancel their
pending animation frames, and clear the header-exit, auto-expand,
auto-collapse and swap timers; no event is processed afterwards. -/
def vmUnmount (s : SileoVmState) : SileoVmState :=
  let s1 := if s.pillObserver then { s with pillRaf := false, pillObserver := false } else s
  let s2 :=
    if s1.contentObserver then { s1 with contentRaf := false, contentObserver := false }
    else s1
  { s2 with
    mounted := false
    headerExitTimer := false
    autoExpandTimer := false
    autoCollapseTimer := false
    swapTimer := false }

/-- Events of one `Sileo` instance: prop-driven watch firings, its own timer
and observer callbacks, the hover handlers, and teardown. -/
inductive VmEvent
  | propsChange (refreshKey : Option Nat) (next : View)
  | swapFire
  | transitionEnd (propName : String)
  | hoverEnter
  | hoverLeave
  | autoWatch (exiting allowExp : Bool) (expandDelay collapseDelay : Option Int)
  | autoExpandFire
  | autoCollapseFire
  | headerPrevChange
  | headerExitFire
  | pillResize
  | contentResize
  | rafPillFire
  | rafContentFire (newHeight : ℚ)
  | unmount
deriving DecidableEq, Repr

/-- One component event.  Timer/observer callbacks are guarded by their armed
flag (a cancelled callback never runs) and everything is guarded by
`mounted`. -/
def vmStep (ev : VmEvent) (s : SileoVmState) : SileoVmState :=
  if !s.mounted then s
  else
    match ev with
    | .propsChange rk next => refreshWatch rk next s
    | .swapFire => swapFireStep s
    | .transitionEnd p => transitionEndStep p s
    | .hoverEnter => if hasDescView s.view then { s with isExpanded := true } else s
    | .hoverLeave => { s with isExpanded := false }
    | .autoWatch ex al ed cd => autoWatchBody ex al ed cd s
    | .autoExpandFire =>
      if s.autoExpandTimer then { s with autoExpandTimer := false, isExpanded := true }
      else s
    | .autoCollapseFire =>
      if s.autoCollapseTimer then { s with autoCollapseTimer := false, isExpanded := false }
      else s
    | .headerPrevChange => { s with headerExitTimer := true }
    | .headerExitFire =>
      if s.headerExitTimer then { s with headerExitTimer := false } else s
    | .pillResize => if s.pillObserver then { s with pillRaf := true } else s
    | .contentResize => if s.contentObserver then { s with contentRaf := true } else s
    | .rafPillFire => if s.pillRaf then { s with pillRaf := false } else s
    | .rafContentFire h =>
      if s.contentRaf then { s with contentRaf := false, contentHeight := h } else s
    | .unmount => vmUnmount s

/-- Run a sequence of component events. -/
def runVm : SileoVmState → List VmEvent → SileoVmState
  | s, [] => s
  | s, ev :: evs => runVm (vmStep ev s) evs

/-- Every timer, observer and animation frame of the instance is cancelled:
nothing outstanding. -/
def vmResourcesClear (s : SileoVmState) : Prop :=
  s.swapTimer = false ∧ s.headerExitTimer = false ∧ s.autoExpandTimer = false ∧
    s.autoCollapseTimer = false ∧ s.pillObserver = false ∧ s.contentObserver = false ∧
    s.pillRaf = false ∧ s.contentRaf = false

/-! ### Expand geometry (lines 195 and 210-223) -/

/-- Initial value of the mutable `frozenExpanded` (line 195). -/
def frozenExpandedInit : ℚ := HEIGHT * minExpandRatio

/-- `minExpanded` (line 210). -/
def minExpanded : ℚ := HEIGHT * minExpandRatio

/-- `rawExpanded` (lines 212-215). -/
def rawExpanded (hasDesc : Bool) (contentHeight : ℚ) : ℚ :=
  if !hasDesc then minExpanded
  else max minExpanded (HEIGHT + contentHeight)

/-- `expanded` (lines 217-223): while open the live raw value is used and
also stored into `frozenExpanded`; while closed the frozen value is used.
Returns (rendered value, new frozen value). -/
def expandedCalc (isOpen hasDesc : Bool) (contentHeight frozen : ℚ) : ℚ × ℚ :=
  if isOpen then (rawExpanded hasDesc contentHeight, rawExpanded hasDesc contentHeight)
  else (frozen, frozen)

/-- Successive evaluations of the `expanded` computed over a sequence of
(open, hasDesc, measured content height) observations, threading the frozen
value. -/
def expandedTrace (frozen : ℚ) : List (Bool × Bool × ℚ) → List ℚ
  | [] => []
  | (isOpen, hasDesc, ch) :: rest =>
    let r := expandedCalc isOpen hasDesc ch frozen
    r.1 :: expandedTrace r.2 rest

/-! ### Swipe to dismiss (lines 450-477) -/

def SWIPE_DISMISS : ℚ := 30

def SWIPE_MAX : ℚ := 20

/-- `onMove` (lines 457-463): the translateY applied during the drag, the
absolute displacement clamped to `SWIPE_MAX` with the sign restored. -/
def swipeTransform (dy : ℚ) : ℚ :=
  let sign : ℚ := if dy > 0 then 1 else -1
  (min |dy| SWIPE_MAX) * sign

/-- `onUp` (lines 465-473): the release dismisses exactly when the raw
displacement strictly exceeds `SWIPE_DISMISS`. -/
def swipeDismisses (dy : ℚ) : Bool :=
  decide (SWIPE_DISMISS < |dy|)

/-- `onUp` resets `el.style.transform` to the empty string before deciding:
the toast snaps back to zero displacement. -/
def swipeReleaseTransform : ℚ := 0

/-! ## Viewport offsets (`getViewportStyle`, React lines 175-196 and Vue
lines 179-198) -/

/-- `SileoOffsetValue`: a number (px) or a CSS length string. -/
inductive OffsetValue
  | num (n : ℚ)
  | str (s : String)
deriving DecidableEq, Repr

/-- JavaScript truthiness of an offset value in the `o.top && ...` guards:
the number 0 and the empty string are falsy. -/
def offsetTruthy : OffsetValue → Bool
  | .num n => decide (n ≠ 0)
  | .str s => s != ""

/-- `SileoOffsetConfig` of `src/core/types.ts`. -/
structure SileoOffsetConfig where
  top : Option OffsetValue
  right : Option OffsetValue
  bottom : Option OffsetValue
  left : Option OffsetValue
deriving DecidableEq, Repr

/-- The six positions of `SILEO_POSITIONS`. -/
inductive SileoPosition
  | topLeft
  | topCenter
  | topRight
  | bottomLeft
  | bottomCenter
  | bottomRight
deriving DecidableEq, Repr

/-- `pos.startsWith("top")`. -/
def posTop : SileoPosition → Bool
  | .topLeft | .topCenter | .topRight => true
  | _ => false

/-- `pos.startsWith("bottom")`: every position starts with one of the two. -/
def posBottom (p : SileoPosition) : Bool := !posTop p

/-- `pos.endsWith("left")`. -/
def posLeft : SileoPosition → Bool
  | .topLeft | .bottomLeft => true
  | _ => false

/-- `pos.endsWith("right")`. -/
def posRight : SileoPosition → Bool
  | .topRight | .bottomRight => true
  | _ => false

/-- `px`: numbers get a `px` suffix, strings pass through. -/
def pxOf : OffsetValue → String
  | .num n => toString n ++ "px"
  | .str s => s

/-- One conditional style assignment such as
`if (pos.startsWith("top") && o.top) s.top = px(o.top)`. -/
def edgeEntry (name : String) (cond : Bool) (v : Option OffsetValue) :
    List (String × String) :=
  match v with
  | none => []
  | some v => if cond && offsetTruthy v then [(name, pxOf v)] else []

/-- The four style assignments of `getViewportStyle`, in source order. -/
def viewportEntries (o : SileoOffsetConfig) (pos : SileoPosition) :
    List (String × String) :=
  edgeEntry "top" (posTop pos) o.top ++ edgeEntry "bottom" (posBottom pos) o.bottom
    ++ edgeEntry "left" (posLeft pos) o.left ++ edgeEntry "right" (posRight pos) o.right

/-- `getViewportStyle`: an `undefined` offset yields no style object; a
scalar offset is first expanded to all four edges; then each edge is emitted
only when the position matches and the value is truthy. -/
def getViewportStyle (offset : Option (OffsetValue ⊕ SileoOffsetConfig))
    (pos : SileoPosition) : Option (List (String × String)) :=
  match offset with
  | none => none
  | some (Sum.inr cfg) => some (viewportEntries cfg pos)
  | some (Sum.inl v) => some (viewportEntries ⟨some v, some v, some v, some v⟩ pos)

/-! ## Concrete fixtures used by the witnesses -/

def viewA : View :=
  { title := some "Saved", description := some "ok", state := .success, hasButton := false }

def viewB : View :=
  { title := some "Done", description := some "done", state := .success, hasButton := true }

def vmOpenState : SileoVmState :=
  { mounted := true, view := viewA, isExpanded := true, applied := some 1,
    lastRefreshKey := some 1, pendingView := none, swapTimer := false,
    headerExitTimer := false, autoExpandTimer := false, autoCollapseTimer := false,
    pillObserver := true, contentObserver := true, pillRaf := false, contentRaf := false,
    contentHeight := 80, frozenExpanded := 90 }

def vmClosedState : SileoVmState :=
  { vmOpenState with isExpanded := false }

def vmPendingState : SileoVmState :=
  { vmOpenState with
    isExpanded := false
    pendingView := some (2, viewB)
    swapTimer := true
    lastRefreshKey := some 2 }

def vmArmedState : SileoVmState :=
  { vmPendingState with
    headerExitTimer := true
    autoExpandTimer := true
    pillRaf := true
    contentRaf := true }

def itemA : SileoItem :=
  { id := 0, instanceId := 0, state := .success, title := some "A",
    description := some "a", hasButton := false, duration := some 500,
    exiting := false, autoExpandDelayMs := none, autoCollapseDelayMs := none }

def itemB : SileoItem :=
  { id := 1, instanceId := 0, state := .info, title := some "B",
    description := some "b", hasButton := false, duration := none,
    exiting := false, autoExpandDelayMs := some 0, autoCollapseDelayMs := none }

def toasterArmedState : ToasterState :=
  { mounted := true, hovering := false, timers := [⟨(0, 0), 3, 500⟩],
    vms := [⟨itemA, false⟩], latestId := some 0, activeId := some 0 }

def toasterHoverState : ToasterState :=
  { mounted := true, hovering := true, timers := [],
    vms := [⟨itemA, false⟩, ⟨itemB, true⟩], latestId := some 1, activeId := some 0 }

/-! # Theorems -/

/-! ## Store lemmas -/

theorem applyOp_nextId_le (op : StoreOp) (s : StoreState) :
    s.nextId ≤ (applyOp op s).1.nextId := by
  cases op <;>
    simp [applyOp, showToast, dismissToast, dismissAllToasts, clearStore,
      settleToast, removeToast]

theorem runStore_nextId_le (s : StoreState) (ops : List StoreOp) :
    s.nextId ≤ (runStore s ops).1.nextId := by
  induction ops generalizing s with
  | nil => simp [runStore]
  | cons op ops ih =>
    simp only [runStore]
    exact le_trans (applyOp_nextId_le op s) (ih (applyOp op s).1)

theorem goodStore_show (o : ShowOptions) (s : StoreState) (hs : GoodStore s) :
    GoodStore (showToast o s).1 := by
  intro t ht
  simp only [showToast, List.mem_append, List.mem_singleton] at ht
  rcases ht with h | rfl
  · exact Nat.lt_succ_of_lt (hs t h)
  · exact Nat.lt_succ_self _

theorem goodStore_map (s : StoreState) (f : SileoItem → SileoItem)
    (hf : ∀ t, (f t).id = t.id) (hs : GoodStore s) :
    GoodStore { s with toasts := s.toasts.map f } := by
  intro t ht
  simp only [List.mem_map] at ht
  obtain ⟨u, hu, rfl⟩ := ht
  simpa [hf] using hs u hu

theorem goodStore_applyOp (op : StoreOp) (s : StoreState) (hs : GoodStore s) :
    GoodStore (applyOp op s).1 := by
  cases op
  any_goals exact goodStore_show _ s hs
  case dismissId i =>
    exact goodStore_map s _ (fun t => by split <;> rfl) hs
  case dismissAll => exact goodStore_map s _ (fun t => rfl) hs
  case clear => intro t ht; simp [applyOp, clearStore] at ht
  case settle i o =>
    exact goodStore_map s _ (fun t => by split <;> rfl) hs
  case remove i =>
    intro t ht
    exact hs t (List.mem_of_mem_filter ht)

theorem runStore_ids_ge (s : StoreState) (ops : List StoreOp) :
    ∀ i ∈ (runStore s ops).2, s.nextId ≤ i := by
  induction ops generalizing s with
  | nil => simp [runStore]
  | cons op ops ih =>
    intro i hi
    simp only [runStore, List.mem_append] at hi
    rcases hi with h | h
    · cases op <;> simp [applyOp, showToast] at h <;> omega
    · exact le_trans (applyOp_nextId_le op s) (ih (applyOp op s).1 i h)

theorem runStore_ids_pairwise (s : StoreState) (ops : List StoreOp) :
    ((runStore s ops).2).Pairwise (· < ·) := by
  induction ops generalizing s with
  | nil => simp [runStore]
  | cons op ops ih =>
    simp only [runStore]
    rcases hop : (applyOp op s).2 with _ | i
    · simpa using ih (applyOp op s).1
    · simp only [Option.toList_some, List.singleton_append, List.pairwise_cons]
      refine ⟨?_, ih (applyOp op s).1⟩
      intro j hj
      have hge := runStore_ids_ge (applyOp op s).1 ops j hj
      have hlt : i < (applyOp op s).1.nextId := by
        cases op <;> simp [applyOp, showToast] at hop ⊢ <;> omega
      omega

theorem runStore_ids_nodup (s : StoreState) (ops : List StoreOp) :
    ((runStore s ops).2).Nodup :=
  (runStore_ids_pairwise s ops).imp fun h => Nat.ne_of_lt h

/-- C2: for every sequence of `show` (and convenience-wrapper) operations,
the ids returned are pairwise distinct; `show` appends the new toast at the
end of the list (insertion order preserved) and returns its id; and the id it
assigns is never one currently present in the list. -/
theorem show_ids_unique_and_ordered (s : StoreState) (ops : List StoreOp)
    (o : ShowOptions) (hs : GoodStore s) :
    ((runStore s ops).2).Nodup
    ∧ (applyOp (StoreOp.showOp o) s).1.toasts = s.toasts ++ [mkToast o s.nextId]
    ∧ (applyOp (StoreOp.showOp o) s).2 = some s.nextId
    ∧ s.nextId ∉ s.toasts.map SileoItem.id := by
  refine ⟨runStore_ids_nodup s ops, rfl, rfl, ?_⟩
  intro hmem
  simp only [List.mem_map] at hmem
  obtain ⟨t, ht, hid⟩ := hmem
  have := hs t ht
  omega

/-- Witness for C2 at a concrete operation sequence. -/
theorem show_ids_unique_and_ordered_witness :
    GoodStore emptyStore
    ∧ (((runStore emptyStore
          [StoreOp.showOp ⟨.success, some "a", none, false, none, none, none⟩,
           StoreOp.dismissId 0,
           StoreOp.success ⟨.success, some "b", none, false, none, none, none⟩]).2).Nodup
        ∧ (applyOp (StoreOp.showOp ⟨.info, none, none, false, none, none, none⟩)
              emptyStore).1.toasts
            = emptyStore.toasts ++ [mkToast ⟨.info, none, none, false, none, none, none⟩
                emptyStore.nextId]
        ∧ (applyOp (StoreOp.showOp ⟨.info, none, none, false, none, none, none⟩)
              emptyStore).2 = some emptyStore.nextId
        ∧ emptyStore.nextId ∉ emptyStore.toasts.map SileoItem.id) := by
  have hs : GoodStore emptyStore := by intro t ht; simp [emptyStore] at ht
  exact ⟨hs, show_ids_unique_and_ordered emptyStore _ _ hs⟩

theorem dismissed_show (o : ShowOptions) (s : StoreState) (id : Nat)
    (hd : Dismissed id s) : Dismissed id (showToast o s).1 := by
  obtain ⟨hlt, hall⟩ := hd
  refine ⟨Nat.lt_succ_of_lt hlt, ?_⟩
  intro t ht hti
  simp only [showToast, List.mem_append, List.mem_singleton] at ht
  rcases ht with h | rfl
  · exact hall t h hti
  · exfalso
    simp [mkToast] at hti
    omega

theorem dismissed_map (s : StoreState) (id : Nat) (f : SileoItem → SileoItem)
    (hd : Dismissed id s)
    (hf : ∀ t ∈ s.toasts, (t.id = id → t.exiting = true) →
      ((f t).id = id → (f t).exiting = true)) :
    Dismissed id { s with toasts := s.toasts.map f } := by
  obtain ⟨hlt, hall⟩ := hd
  refine ⟨hlt, ?_⟩
  intro t ht
  simp only [List.mem_map] at ht
  obtain ⟨u, hu, rfl⟩ := ht
  exact hf u hu (hall u hu)

theorem dismissed_applyOp (id : Nat) (op : StoreOp) (s : StoreState)
    (hd : Dismissed id s) : Dismissed id (applyOp op s).1 := by
  cases op
  any_goals exact dismissed_show _ s id hd
  case dismissId j =>
    refine dismissed_map s id _ hd ?_
    intro u _ h hti
    by_cases hc : (u.id == j && !u.exiting) = true
    · rw [if_pos hc]
    · rw [if_neg hc] at hti ⊢
      exact h hti
  case dismissAll =>
    refine dismissed_map s id _ hd ?_
    intro u _ _ _
    rfl
  case clear =>
    exact ⟨hd.1, by intro t ht; simp [applyOp, clearStore] at ht⟩
  case settle j o =>
    refine dismissed_map s id _ hd ?_
    intro u _ h hti
    by_cases hc : (u.id == j && !u.exiting) = true
    · exfalso
      rw [if_pos hc] at hti
      simp only [Bool.and_eq_true, beq_iff_eq, Bool.not_eq_true'] at hc
      simp only at hti
      have := h hti
      rw [this] at hc
      simp at hc
    · rw [if_neg hc] at hti ⊢
      exact h hti
  case remove j =>
    refine ⟨hd.1, ?_⟩
    intro t ht
    exact hd.2 t (List.mem_of_mem_filter ht)

theorem dismissed_runStore (id : Nat) (s : StoreState) (ops : List StoreOp)
    (hd : Dismissed id s) : Dismissed id (runStore s ops).1 := by
  induction ops generalizing s with
  | nil => exact hd
  | cons op ops ih =>
    simp only [runStore]
    exact ih (applyOp op s).1 (dismissed_applyOp id op s hd)

theorem settle_noop (id : Nat) (o : ShowOptions) (s : StoreState)
    (hall : ∀ t ∈ s.toasts, t.id = id → t.exiting = true) :
    settleToast id o s = s := by
  have h : ∀ t ∈ s.toasts, ¬((t.id == id && !t.exiting) = true) := by
    intro t ht hc
    simp only [Bool.and_eq_true, beq_iff_eq, Bool.not_eq_true'] at hc
    rw [hall t ht hc.1] at hc
    simp at hc
  cases s with
  | mk toasts nextId =>
    simp only [settleToast, StoreState.mk.injEq]
    refine ⟨?_, trivial⟩
    conv_rhs => rw [← List.map_id toasts]
    exact List.map_congr_left fun t ht => by rw [if_neg (h t ht)]; rfl

/-- C3: if `dismiss(id)` happened before a `promise()` settlement for that
id, the late settlement performs no in-place update at all — the store is
left unchanged, returns no id, and every toast still carrying the id remains
exiting, whatever operations ran in between. -/
theorem settle_after_dismiss_suppressed (s : StoreState) (id : Nat)
    (o : ShowOptions) (ops : List StoreOp) (hid : id < s.nextId) :
    applyOp (StoreOp.settle id o) (runStore (dismissToast id s) ops).1
        = ((runStore (dismissToast id s) ops).1, none)
    ∧ ∀ t ∈ (runStore (dismissToast id s) ops).1.toasts, t.id = id → t.exiting = true := by
  have hd0 : Dismissed id (dismissToast id s) := by
    refine ⟨hid, ?_⟩
    intro t ht
    simp only [dismissToast, List.mem_map] at ht
    obtain ⟨u, hu, rfl⟩ := ht
    by_cases hc : (u.id == id && !u.exiting) = true
    · rw [if_pos hc]
      intro _
      rfl
    · rw [if_neg hc]
      intro hti
      simp only [Bool.and_eq_true, beq_iff_eq, Bool.not_eq_true'] at hc
      rcases Bool.eq_false_or_eq_true u.exiting with hex | hex
      · exact hex
      · exact absurd ⟨hti, hex⟩ hc
  have hd : Dismissed id (runStore (dismissToast id s) ops).1 :=
    dismissed_runStore id (dismissToast id s) ops hd0
  refine ⟨?_, hd.2⟩
  show (settleToast id o _, none) = _
  rw [settle_noop id o _ hd.2]

/-- Witness for C3: a toast shown and dismissed, another shown while the
settlement is pending, then the late settlement. -/
theorem settle_after_dismiss_suppressed_witness :
    (0 < ((runStore emptyStore
        [StoreOp.showOp ⟨.loading, some "Loading", none, false, none, none, none⟩]).1).nextId)
    ∧ (applyOp (StoreOp.settle 0 ⟨.success, some "Done", none, false, none, none, none⟩)
          (runStore (dismissToast 0
              (runStore emptyStore
                [StoreOp.showOp ⟨.loading, some "Loading", none, false, none, none, none⟩]).1)
            [StoreOp.showOp ⟨.info, some "Other", none, false, none, none, none⟩]).1
        = ((runStore (dismissToast 0
              (runStore emptyStore
                [StoreOp.showOp ⟨.loading, some "Loading", none, false, none, none, none⟩]).1)
            [StoreOp.showOp ⟨.info, some "Other", none, false, none, none, none⟩]).1, none)
      ∧ ∀ t ∈ (runStore (dismissToast 0
              (runStore emptyStore
                [StoreOp.showOp ⟨.loading, some "Loading", none, false, none, none, none⟩]).1)
            [StoreOp.showOp ⟨.info, some "Other", none, false, none, none, none⟩]).1.toasts,
          t.id = 0 → t.exiting = true) := by
  refine ⟨by decide, settle_after_dismiss_suppressed _ 0 _ _ (by decide)⟩

/-! ## Expand geometry (C8) -/

theorem expandedTrace_closed (frozen : ℚ) (steps : List (Bool × Bool × ℚ))
    (hclosed : ∀ st ∈ steps, st.1 = false) :
    expandedTrace frozen steps = steps.map fun _ => frozen := by
  induction steps with
  | nil => simp [expandedTrace]
  | cons st rest ih =>
    obtain ⟨isOpen, hasDesc, ch⟩ := st
    have h1 : isOpen = false := hclosed _ (List.mem_cons_self _ _)
    subst h1
    have h2 : expandedCalc false hasDesc ch frozen = (frozen, frozen) := by
      simp [expandedCalc]
    simp only [expandedTrace, h2, List.map_cons]
    congr 1
    exact ih fun st hst => hclosed st (List.mem_cons_of_mem _ hst)

/-- C8: while the card is open (with expandable content), the expanded
height equals `max(minimum expand height, collapsed height + measured
content height)` and that value is stored as the frozen height, where the
minimum expand height is the fixed multiple `minExpandRatio` of the
collapsed height and the initial frozen value is that minimum; while the
card is not open, the rendered value is the frozen height, the frozen height
never changes, and so it stays at the last value computed while open for an
entire closed stretch. -/
theorem expanded_height_spec (ch frozen : ℚ) (steps : List (Bool × Bool × ℚ))
    (hclosed : ∀ st ∈ steps, st.1 = false) :
    (expandedCalc true true ch frozen).1 = max minExpanded (HEIGHT + ch)
    ∧ (expandedCalc true true ch frozen).2 = max minExpanded (HEIGHT + ch)
    ∧ (∀ hasDesc : Bool, expandedCalc false hasDesc ch frozen = (frozen, frozen))
    ∧ minExpanded = HEIGHT * minExpandRatio
    ∧ frozenExpandedInit = minExpanded
    ∧ expandedTrace frozen steps = steps.map (fun _ => frozen) := by
  refine ⟨?_, ?_, ?_, rfl, rfl, expandedTrace_closed frozen steps hclosed⟩
  · simp [expandedCalc, rawExpanded]
  · simp [expandedCalc, rawExpanded]
  · intro hasDesc
    simp [expandedCalc]

/-- Witness for C8 at concrete heights and a concrete closed stretch. -/
theorem expanded_height_spec_witness :
    (∀ st ∈ [((false, true, (120 : ℚ))), (false, false, 55)], st.1 = false)
    ∧ ((expandedCalc true true 120 90).1 = max minExpanded (HEIGHT + 120)
      ∧ (expandedCalc true true 120 90).2 = max minExpanded (HEIGHT + 120)
      ∧ (∀ hasDesc : Bool, expandedCalc false hasDesc 120 90 = (90, 90))
      ∧ minExpanded = HEIGHT * minExpandRatio
      ∧ frozenExpandedInit = minExpanded
      ∧ expandedTrace 90 [(false, true, 120), (false, false, 55)]
          = [(false, true, (120 : ℚ)), (false, false, 55)].map (fun _ => (90 : ℚ))) := by
  refine ⟨by decide, expanded_height_spec 120 90 _ (by decide)⟩

/-! ## Swipe to dismiss (C9) -/

theorem swipeTransform_abs (dy : ℚ) : |swipeTransform dy| = min |dy| SWIPE_MAX := by
  have hmin : 0 ≤ min |dy| SWIPE_MAX :=
    le_min (abs_nonneg dy) (by norm_num [SWIPE_MAX])
  unfold swipeTransform
  by_cases h : 0 < dy
  · simp only [if_pos h, mul_one]
    exact abs_of_nonneg hmin
  · simp only [if_neg h]
    rw [abs_mul]
    simp [abs_of_nonneg hmin]

/-- C9: the visual displacement during a drag is the raw displacement
clamped in absolute value to `SWIPE_MAX`, a fixed maximum smaller than the
dismiss threshold, preserving the drag direction (and equal to the raw value
for small drags); on release the toast's transform is reset to zero and
dismissal triggers exactly when the raw displacement strictly exceeds
`SWIPE_DISMISS`, so a below-threshold drag snaps back with no effect. -/
theorem swipe_clamp_and_threshold (dy : ℚ) :
    |swipeTransform dy| ≤ SWIPE_MAX
    ∧ SWIPE_MAX < SWIPE_DISMISS
    ∧ (0 < dy → 0 < swipeTransform dy)
    ∧ (dy < 0 → swipeTransform dy < 0)
    ∧ (|dy| ≤ SWIPE_MAX → swipeTransform dy = dy)
    ∧ (swipeDismisses dy = true ↔ SWIPE_DISMISS < |dy|)
    ∧ (|dy| ≤ SWIPE_DISMISS → swipeDismisses dy = false)
    ∧ swipeReleaseTransform = 0 := by
  refine ⟨?_, by norm_num [SWIPE_MAX, SWIPE_DISMISS], ?_, ?_, ?_, ?_, ?_, rfl⟩
  · rw [swipeTransform_abs]
    exact min_le_right _ _
  · intro h
    unfold swipeTransform
    simp only [if_pos h, mul_one]
    exact lt_min (abs_pos.mpr (ne_of_gt h)) (by norm_num [SWIPE_MAX])
  · intro h
    unfold swipeTransform
    simp only [if_neg (not_lt.mpr (le_of_lt h))]
    have : 0 < min |dy| SWIPE_MAX :=
      lt_min (abs_pos.mpr (ne_of_lt h)) (by norm_num [SWIPE_MAX])
    nlinarith
  · intro h
    unfold swipeTransform
    rw [min_eq_left h]
    by_cases hp : 0 < dy
    · rw [if_pos hp, mul_one, abs_of_pos hp]
    · rw [if_neg hp, abs_of_nonpos (not_lt.mp hp)]
      ring
  · unfold swipeDismisses
    exact decide_eq_true_iff
  · intro h
    unfold swipeDismisses
    simp [not_lt.mpr h]

/-- Witness for C9 at concrete drags. -/
theorem swipe_clamp_and_threshold_witness :
    |swipeTransform 50| ≤ SWIPE_MAX
    ∧ SWIPE_MAX < SWIPE_DISMISS
    ∧ 0 < swipeTransform 50
    ∧ swipeTransform (-10) < 0
    ∧ swipeTransform 15 = 15
    ∧ swipeDismisses 50 = true
    ∧ swipeDismisses 25 = false
    ∧ swipeReleaseTransform = 0 := by
  obtain ⟨h1, h2, h3, -, -, h6, -, h8⟩ := swipe_clamp_and_threshold 50
  obtain ⟨-, -, -, h4, -, -, -, -⟩ := swipe_clamp_and_threshold (-10)
  obtain ⟨-, -, -, -, h5, -, -, -⟩ := swipe_clamp_and_threshold 15
  obtain ⟨-, -, -, -, -, -, h7, -⟩ := swipe_clamp_and_threshold 25
  refine ⟨h1, h2, h3 (by norm_num), h4 (by norm_num), h5 ?_, h6.mpr ?_, h7 ?_, h8⟩
  · rw [show |(15 : ℚ)| = 15 from abs_of_nonneg (by norm_num)]
    norm_num [SWIPE_MAX]
  · rw [show |(50 : ℚ)| = 50 from abs_of_nonneg (by norm_num)]
    norm_num [SWIPE_DISMISS]
  · rw [show |(25 : ℚ)| = 25 from abs_of_nonneg (by norm_num)]
    norm_num [SWIPE_DISMISS]

/-! ## Viewport offsets (C10) -/

/-- C10: a scalar offset is expanded to all four edges before filtering, and
an edge whose value is falsy (the number 0 or the empty string) produces
exactly the style entries of an absent edge, for every edge and position —
so callers cannot distinguish offset 0 from no offset. -/
theorem offset_zero_treated_as_absent (v w : OffsetValue) (cfg : SileoOffsetConfig)
    (pos : SileoPosition) (hw : offsetTruthy w = false) :
    getViewportStyle (some (Sum.inl v)) pos
        = getViewportStyle (some (Sum.inr ⟨some v, some v, some v, some v⟩)) pos
    ∧ viewportEntries { cfg with top := some w } pos
        = viewportEntries { cfg with top := none } pos
    ∧ viewportEntries { cfg with right := some w } pos
        = viewportEntries { cfg with right := none } pos
    ∧ viewportEntries { cfg with bottom := some w } pos
        = viewportEntries { cfg with bottom := none } pos
    ∧ viewportEntries { cfg with left := some w } pos
        = viewportEntries { cfg with left := none } pos
    ∧ offsetTruthy (OffsetValue.num 0) = false
    ∧ offsetTruthy (OffsetValue.str "") = false := by
  refine ⟨rfl, ?_, ?_, ?_, ?_, by decide, by decide⟩ <;>
    simp [viewportEntries, edgeEntry, hw]

/-- Witness for C10: the zero offset on each edge at a concrete position. -/
theorem offset_zero_treated_as_absent_witness :
    offsetTruthy (OffsetValue.num 0) = false
    ∧ (getViewportStyle (some (Sum.inl (OffsetValue.num 8))) SileoPosition.topRight
          = getViewportStyle (some (Sum.inr ⟨some (OffsetValue.num 8),
              some (OffsetValue.num 8), some (OffsetValue.num 8),
              some (OffsetValue.num 8)⟩)) SileoPosition.topRight
      ∧ viewportEntries ⟨some (OffsetValue.num 0), some (OffsetValue.str "4px"), none, none⟩
            SileoPosition.topRight
          = viewportEntries ⟨none, some (OffsetValue.str "4px"), none, none⟩
            SileoPosition.topRight
      ∧ viewportEntries ⟨some (OffsetValue.num 0), some (OffsetValue.num 0), none, none⟩
            SileoPosition.topRight
          = viewportEntries ⟨some (OffsetValue.num 0), none, none, none⟩
            SileoPosition.topRight
      ∧ viewportEntries ⟨some (OffsetValue.num 0), some (OffsetValue.str "4px"),
            some (OffsetValue.num 0), none⟩ SileoPosition.topRight
          = viewportEntries ⟨some (OffsetValue.num 0), some (OffsetValue.str "4px"),
            none, none⟩ SileoPosition.topRight
      ∧ viewportEntries ⟨some (OffsetValue.num 0), some (OffsetValue.str "4px"), none,
            some (OffsetValue.num 0)⟩ SileoPosition.topRight
          = viewportEntries ⟨some (OffsetValue.num 0), some (OffsetValue.str "4px"),
            none, none⟩ SileoPosition.topRight
      ∧ offsetTruthy (OffsetValue.num 0) = false
      ∧ offsetTruthy (OffsetValue.str "") = false) := by
  refine ⟨by decide, ?_⟩
  exact offset_zero_treated_as_absent (OffsetValue.num 8) (OffsetValue.num 0)
    ⟨some (OffsetValue.num 0), some (OffsetValue.str "4px"), none, none⟩
    SileoPosition.topRight (by decide)

/-! ## Content swap protocol (C5) -/

/-- C5: when the rendered toast's content identity (refresh key) changes
while the card is open, the applied view does not change — the new content
is stashed, the card starts collapsing and the fallback timer is armed — and
the stashed view becomes visible exactly through the two completion signals
(the height/transform transition-end or the fallback timer); when the card
is collapsed, the new content is applied immediately.  No other interaction
event changes the applied view. -/
theorem content_swap_deferred (s : SileoVmState) (k : Nat) (next : View)
    (p : Nat × View) (hm : s.mounted = true) :
    (openOf s = false → s.lastRefreshKey ≠ some k →
      (vmStep (.propsChange (some k) next) s).view = next
      ∧ (vmStep (.propsChange (some k) next) s).applied = some k
      ∧ (vmStep (.propsChange (some k) next) s).pendingView = none)
    ∧ (openOf s = true → s.lastRefreshKey ≠ some k →
      (vmStep (.propsChange (some k) next) s).view = s.view
      ∧ (vmStep (.propsChange (some k) next) s).pendingView = some (k, next)
      ∧ (vmStep (.propsChange (some k) next) s).isExpanded = false
      ∧ (vmStep (.propsChange (some k) next) s).swapTimer = true)
    ∧ (s.swapTimer = true → s.pendingView = some p →
      (vmStep .swapFire s).view = p.2 ∧ (vmStep .swapFire s).applied = some p.1
      ∧ (vmStep .swapFire s).pendingView = none)
    ∧ (openOf s = false → s.pendingView = some p →
      (vmStep (.transitionEnd "height") s).view = p.2
      ∧ (vmStep (.transitionEnd "height") s).applied = some p.1
      ∧ (vmStep (.transitionEnd "height") s).pendingView = none
      ∧ (vmStep (.transitionEnd "height") s).swapTimer = false)
    ∧ (s.lastRefreshKey = some k → vmStep (.propsChange (some k) next) s = s)
    ∧ (openOf s = true → vmStep (.transitionEnd "height") s = s)
    ∧ (∀ p2 : String, p2 ≠ "height" → p2 ≠ "transform" →
        vmStep (.transitionEnd p2) s = s)
    ∧ (vmStep .hoverEnter s).view = s.view
    ∧ (vmStep .hoverLeave s).view = s.view
    ∧ (∀ ex al ed cd, (vmStep (.autoWatch ex al ed cd) s).view = s.view)
    ∧ (vmStep .autoExpandFire s).view = s.view
    ∧ (vmStep .autoCollapseFire s).view = s.view := by
  refine ⟨?_, ?_, ?_, ?_, ?_, ?_, ?_, ?_, ?_, ?_, ?_, ?_⟩
  · intro ho hk
    simp only [vmStep, hm, Bool.not_true, Bool.false_eq_true, if_false, refreshWatch]
    rw [if_neg (by simpa using hk), if_neg (by simp [ho])]
    exact ⟨rfl, rfl, rfl⟩
  · intro ho hk
    simp only [vmStep, hm, Bool.not_true, Bool.false_eq_true, if_false, refreshWatch]
    rw [if_neg (by simpa using hk), if_pos (by simp [ho])]
    exact ⟨rfl, rfl, rfl, rfl⟩
  · intro ht hp
    simp only [vmStep, hm, Bool.not_true, Bool.false_eq_true, if_false, swapFireStep,
      ht, Bool.not_true]
    simp [hp]
  · intro ho hp
    simp only [vmStep, hm, Bool.not_true, Bool.false_eq_true, if_false, transitionEndStep]
    rw [if_neg (by decide), if_neg (by simp [ho])]
    simp [hp]
  · intro hk
    simp only [vmStep, hm, Bool.not_true, Bool.false_eq_true, if_false, refreshWatch]
    rw [if_pos (by simp [hk])]
  · intro ho
    simp only [vmStep, hm, Bool.not_true, Bool.false_eq_true, if_false, transitionEndStep]
    rw [if_neg (by decide), if_pos (by simp [ho])]
  · intro p2 h1 h2
    simp only [vmStep, hm, Bool.not_true, Bool.false_eq_true, if_false, transitionEndStep]
    rw [if_pos (by simp [h1, h2])]
  · simp only [vmStep, hm, Bool.not_true, Bool.false_eq_true, if_false]
    split <;> rfl
  · simp only [vmStep, hm, Bool.not_true, Bool.false_eq_true, if_false]
  · intro ex al ed cd
    simp only [vmStep, hm, Bool.not_true, Bool.false_eq_true, if_false, autoWatchBody]
    split
    · rfl
    · split
      · rfl
      · split
        · rfl
        · split <;> split <;> rfl
  · simp only [vmStep, hm, Bool.not_true, Bool.false_eq_true, if_false]
    split <;> rfl
  · simp only [vmStep, hm, Bool.not_true, Bool.false_eq_true, if_false]
    split <;> rfl

/-- Witness for C5: a concrete open card receiving new content, the stash
applied by the fallback timer and by the transition end. -/
theorem content_swap_deferred_witness :
    (vmStep (.propsChange (some 2) viewB) vmOpenState).view = vmOpenState.view
    ∧ (vmStep (.propsChange (some 2) viewB) vmOpenState).pendingView = some (2, viewB)
    ∧ (vmStep (.propsChange (some 2) viewB) vmOpenState).isExpanded = false
    ∧ (vmStep (.propsChange (some 2) viewB) vmOpenState).swapTimer = true
    ∧ (vmStep (.propsChange (some 2) viewB) vmClosedState).view = viewB
    ∧ (vmStep (.propsChange (some 2) viewB) vmClosedState).applied = some 2
    ∧ (vmStep .swapFire vmPendingState).view = viewB
    ∧ (vmStep (.transitionEnd "height") vmPendingState).view = viewB
    ∧ (vmStep (.transitionEnd "height") vmPendingState).swapTimer = false
    ∧ (vmStep (.transitionEnd "opacity") vmPendingState) = vmPendingState := by
  obtain ⟨-, hb, -, -, -, -, -, -, -, -, -, -⟩ :=
    content_swap_deferred vmOpenState 2 viewB (2, viewB) rfl
  obtain ⟨hb1, hb2, hb3, hb4⟩ := hb (by decide) (by decide)
  obtain ⟨ha, -, -, hc, hd, -, -, he, -, -, -, -⟩ :=
    content_swap_deferred vmClosedState 2 viewB (2, viewB) rfl
  obtain ⟨ha1, ha2, -⟩ := ha (by decide) (by decide)
  obtain ⟨-, -, -, hp, -, -, hq, -, -, -, -, -⟩ :=
    content_swap_deferred vmPendingState 2 viewB (2, viewB) rfl
  obtain ⟨hp1, -, -, hp4⟩ := hp (by decide) (by decide)
  refine ⟨hb1, hb2, hb3, hb4, ha1, ha2, ?_, hp1, hp4, hq "opacity" (by decide) (by decide)⟩
  obtain ⟨-, -, hs, -, -, -, -, -, -, -, -, -⟩ :=
    content_swap_deferred vmPendingState 2 viewB (2, viewB) rfl
  exact (hs (by decide) (by decide)).1

/-! ## Teardown (C7) -/

theorem runToaster_unmounted (s : ToasterState) (hs : s.mounted = false)
    (tr : List (Nat × TEvent)) : runToaster s tr = (s, []) := by
  induction tr with
  | nil => rfl
  | cons e tr ih =>
    obtain ⟨now, ev⟩ := e
    have hstep : stepToaster now ev s = (s, []) := by
      simp [stepToaster, hs]
    simp only [runToaster, hstep]
    simp [ih]

theorem runVm_unmounted (s : SileoVmState) (hs : s.mounted = false)
    (evs : List VmEvent) : runVm s evs = s := by
  induction evs with
  | nil => rfl
  | cons ev evs ih =>
    have hstep : vmStep ev s = s := by simp [vmStep, hs]
    simp only [runVm, hstep]
    exact ih

theorem vmUnmount_clear (s : SileoVmState)
    (hp : s.pillRaf = true → s.pillObserver = true)
    (hc : s.contentRaf = true → s.contentObserver = true) :
    vmResourcesClear (vmUnmount s) ∧ (vmUnmount s).mounted = false := by
  have hpr : s.pillObserver = false → s.pillRaf = false := by
    intro h
    cases hr : s.pillRaf
    · rfl
    · rw [hp hr] at h; exact h.symm ▸ rfl
  have hcr : s.contentObserver = false → s.contentRaf = false := by
    intro h
    cases hr : s.contentRaf
    · rfl
    · rw [hc hr] at h; exact h.symm ▸ rfl
  unfold vmUnmount vmResourcesClear
  cases h1 : s.pillObserver <;> cases h2 : s.contentObserver
  · simp [h1, h2, hpr h1, hcr h2]
  · simp [h1, h2, hpr h1]
  · simp [h1, h2, hcr h2]
  · simp [h1, h2]

/-- C7: unmounting synchronously cancels everything the instance owns.  For
the adapter: the unmount step clears the whole timer map, drops the store
subscription (`mounted`), and afterwards no event changes the state and no
dismissal request is ever emitted.  For a toast's visual state machine: the
unmount step clears the swap, header-exit, auto-expand and auto-collapse
timers, disconnects both resize observers and cancels their animation
frames, and afterwards no event (timer, observer or otherwise) changes the
state. -/
theorem unmount_cancels_everything (ts : ToasterState) (s : SileoVmState) (now : Nat)
    (tr : List (Nat × TEvent)) (evs : List VmEvent)
    (hts : ts.mounted = true) (hs : s.mounted = true)
    (hp : s.pillRaf = true → s.pillObserver = true)
    (hc : s.contentRaf = true → s.contentObserver = true) :
    (stepToaster now .unmount ts).1.timers = []
    ∧ (stepToaster now .unmount ts).1.mounted = false
    ∧ (stepToaster now .unmount ts).2 = []
    ∧ runToaster (stepToaster now .unmount ts).1 tr = ((stepToaster now .unmount ts).1, [])
    ∧ vmResourcesClear (vmStep .unmount s)
    ∧ (vmStep .unmount s).mounted = false
    ∧ runVm (vmStep .unmount s) evs = vmStep .unmount s := by
  have hstep : stepToaster now .unmount ts = (stepUnmount ts, []) := by
    simp [stepToaster, hts]
  have hvm : vmStep .unmount s = vmUnmount s := by
    simp [vmStep, hs]
  have hclear := vmUnmount_clear s hp hc
  refine ⟨?_, ?_, ?_, ?_, ?_, ?_, ?_⟩
  · rw [hstep]; simp [stepUnmount]
  · rw [hstep]; simp [stepUnmount]
  · rw [hstep]
  · rw [hstep]
    exact runToaster_unmounted _ rfl tr
  · rw [hvm]; exact hclear.1
  · rw [hvm]; exact hclear.2
  · rw [hvm]
    exact runVm_unmounted _ hclear.2 evs

/-- Witness for C7: a mounted adapter with an armed timer and a component
with every resource armed, torn down and then fed further events. -/
theorem unmount_cancels_everything_witness :
    toasterArmedState.mounted = true
    ∧ vmArmedState.mounted = true
    ∧ (stepToaster 7 .unmount toasterArmedState).1.timers = []
    ∧ (stepToaster 7 .unmount toasterArmedState).1.mounted = false
    ∧ runToaster (stepToaster 7 .unmount toasterArmedState).1
        [(600, .fireTimer (0, 0)), (700, .update [itemB])]
        = ((stepToaster 7 .unmount toasterArmedState).1, [])
    ∧ vmResourcesClear (vmStep .unmount vmArmedState)
    ∧ runVm (vmStep .unmount vmArmedState) [.swapFire, .autoExpandFire, .pillResize]
        = vmStep .unmount vmArmedState := by
  obtain ⟨h1, h2, -, h4, h5, -, h7⟩ :=
    unmount_cancels_everything toasterArmedState vmArmedState 7
      [(600, .fireTimer (0, 0)), (700, .update [itemB])]
      [.swapFire, .autoExpandFire, .pillResize]
      rfl rfl (fun _ => rfl) (fun _ => rfl)
  exact ⟨rfl, rfl, h1, h2, h4, h5, h7⟩

/-! ## Adapter lemmas: projections -/

theorem watchVm_item (a : Option Nat) (vm : Vm) : (watchVm a vm).item = vm.item := by
  unfold watchVm
  split
  · rfl
  · split
    · rfl
    · split
      · rfl
      · split <;> rfl

theorem watchPass_timers (s : ToasterState) : (watchPass s).timers = s.timers := rfl

theorem watchPass_hovering (s : ToasterState) : (watchPass s).hovering = s.hovering := rfl

theorem watchPass_mounted (s : ToasterState) : (watchPass s).mounted = s.mounted := rfl

theorem watchPass_activeId (s : ToasterState) : (watchPass s).activeId = s.activeId := rfl

theorem watchPass_latestId (s : ToasterState) : (watchPass s).latestId = s.latestId := rfl

theorem watchPass_items (s : ToasterState) :
    (watchPass s).vms.map Vm.item = s.vms.map Vm.item := by
  unfold watchPass
  rw [List.map_map]
  exact List.map_congr_left fun vm _ => watchVm_item s.activeId vm

theorem syncLatest_timers (s : ToasterState) : (syncLatest s).timers = s.timers := by
  simp only [syncLatest]
  split <;> rfl

theorem syncLatest_hovering (s : ToasterState) : (syncLatest s).hovering = s.hovering := by
  simp only [syncLatest]
  split <;> rfl

theorem syncLatest_mounted (s : ToasterState) : (syncLatest s).mounted = s.mounted := by
  simp only [syncLatest]
  split <;> rfl

theorem syncLatest_vms (s : ToasterState) : (syncLatest s).vms = s.vms := by
  simp only [syncLatest]
  split <;> rfl

theorem updateVms_items (old : List Vm) (items : List SileoItem) :
    (updateVms old items).map Vm.item = items := by
  unfold updateVms
  rw [List.map_map]
  conv_rhs => rw [← List.map_id items]
  exact List.map_congr_left fun i _ => rfl

theorem map_items_of_item_preserving (f : Vm → Vm) (hf : ∀ vm, (f vm).item = vm.item)
    (l : List Vm) : (l.map f).map Vm.item = l.map Vm.item := by
  rw [List.map_map]
  exact List.map_congr_left fun vm _ => hf vm

/-! ## Adapter lemmas: the scheduler -/

theorem eligDur_pos (t : SileoItem) (d : Int) (h : eligDur t = some d) : 0 < d := by
  unfold eligDur at h
  by_cases he : t.exiting = true
  · rw [if_pos he] at h
    cases h
  · rw [if_neg he] at h
    cases hr : resolvedDur t with
    | none => rw [hr] at h; cases h
    | some d2 =>
      rw [hr] at h
      dsimp only at h
      by_cases hd : d2 ≤ 0
      · rw [if_pos hd] at h; cases h
      · rw [if_neg hd] at h
        cases h
        omega

theorem scheduleStep_eq (now : Nat) (acc : List TimerEntry) (item : SileoItem) :
    scheduleStep now acc item =
      match eligDur item with
      | none => acc
      | some d =>
        if hasKey acc (timeoutKey item) then acc
        else acc ++ [⟨timeoutKey item, now, d.toNat⟩] := by
  unfold scheduleStep eligDur
  by_cases he : item.exiting = true
  · simp [he]
  · rw [if_neg he, if_neg he]
    cases hr : resolvedDur item with
    | none => dsimp only; split <;> rfl
    | some d =>
      dsimp only
      by_cases hd : d ≤ 0
      · simp only [if_pos hd]
        split <;> rfl
      · simp only [if_neg hd]

theorem scheduleItems_subset (now : Nat) (items : List SileoItem) :
    ∀ timers, ∀ e ∈ timers, e ∈ scheduleItems now items timers := by
  induction items with
  | nil => intro timers e he; exact he
  | cons i rest ih =>
    intro timers e he
    simp only [scheduleItems, List.foldl_cons] at *
    apply ih
    rw [scheduleStep_eq]
    cases hm : eligDur i with
    | none => exact he
    | some d =>
      dsimp only
      split
      · exact he
      · exact List.mem_append_left _ he

theorem scheduleItems_mem_src (now : Nat) (items : List SileoItem) :
    ∀ timers, ∀ e ∈ scheduleItems now items timers,
      e ∈ timers ∨ ∃ i ∈ items, ∃ d, eligDur i = some d
        ∧ e = ⟨timeoutKey i, now, d.toNat⟩ := by
  induction items with
  | nil => intro timers e he; exact Or.inl he
  | cons i rest ih =>
    intro timers e he
    simp only [scheduleItems, List.foldl_cons] at he
    rcases ih (scheduleStep now timers i) e he with h | ⟨j, hj, d, hd, he2⟩
    · rw [scheduleStep_eq] at h
      cases hm : eligDur i with
      | none => rw [hm] at h; exact Or.inl h
      | some d =>
        rw [hm] at h
        dsimp only at h
        split at h
        · exact Or.inl h
        · rcases List.mem_append.mp h with h2 | h2
          · exact Or.inl h2
          · exact Or.inr ⟨i, List.mem_cons_self _ _, d, hm, List.mem_singleton.mp h2⟩
    · exact Or.inr ⟨j, List.mem_cons_of_mem _ hj, d, hd, he2⟩

theorem scheduleItems_arms (now : Nat) (i : SileoItem) (d : Int)
    (helig : eligDur i = some d) :
    ∀ items, i ∈ items → (items.map timeoutKey).Nodup →
      ∀ timers, hasKey timers (timeoutKey i) = false →
        (⟨timeoutKey i, now, d.toNat⟩ : TimerEntry) ∈ scheduleItems now items timers := by
  intro items
  induction items with
  | nil => intro h; cases h
  | cons j rest ih =>
    intro hmem hnodup timers hfresh
    simp only [scheduleItems, List.foldl_cons]
    rcases List.mem_cons.mp hmem with rfl | hmem2
    · have hstep : (⟨timeoutKey i, now, d.toNat⟩ : TimerEntry) ∈ scheduleStep now timers i := by
        rw [scheduleStep_eq, helig]
        dsimp only
        rw [if_neg (by simp [hfresh])]
        exact List.mem_append_right _ (List.mem_singleton.mpr rfl)
      exact scheduleItems_subset now rest _ _ hstep
    · have hnodup2 : (rest.map timeoutKey).Nodup := by
        simp only [List.map_cons, List.nodup_cons] at hnodup
        exact hnodup.2
      have hkne : timeoutKey j ≠ timeoutKey i := by
        simp only [List.map_cons, List.nodup_cons] at hnodup
        intro hEq
        exact hnodup.1 (hEq ▸ List.mem_map_of_mem _ hmem2)
      refine ih hmem2 hnodup2 (scheduleStep now timers j) ?_
      rw [scheduleStep_eq]
      cases hm : eligDur j with
      | none => exact hfresh
      | some dj =>
        dsimp only
        split
        · exact hfresh
        · unfold hasKey at hfresh ⊢
          rw [List.any_eq_false] at hfresh ⊢
          intro e he
          rcases List.mem_append.mp he with h2 | h2
          · exact hfresh e h2
          · rw [List.mem_singleton.mp h2]
            simpa using hkne

theorem scheduleItems_key_unique (now : Nat) (i : SileoItem) (d : Int)
    (helig : eligDur i = some d) (items : List SileoItem) (timers : List TimerEntry)
    (hmem : i ∈ items) (hnodup : (items.map timeoutKey).Nodup)
    (hfresh : hasKey timers (timeoutKey i) = false) :
    ∀ e ∈ scheduleItems now items timers, e.key = timeoutKey i →
      e = ⟨timeoutKey i, now, d.toNat⟩ := by
  intro e he hek
  rcases scheduleItems_mem_src now items timers e he with h | ⟨j, hj, dj, hdj, rfl⟩
  · exfalso
    have : hasKey timers (timeoutKey i) = true := by
      unfold hasKey
      rw [List.any_eq_true]
      exact ⟨e, h, by simp [hek]⟩
    rw [this] at hfresh
    cases hfresh
  · have hjk : timeoutKey j = timeoutKey i := by simpa using hek
    have hji : j = i := List.inj_on_of_nodup_map hnodup hj hmem hjk
    subst hji
    rw [helig] at hdj
    cases hdj
    rfl

theorem hasKey_filter_false (timers : List TimerEntry) (p : TimerEntry → Bool)
    (k : Nat × Nat) (h : hasKey timers k = false) :
    hasKey (timers.filter p) k = false := by
  unfold hasKey at *
  rw [List.any_eq_false] at *
  intro e he
  exact h e (List.mem_of_mem_filter he)

theorem scheduleItems_no_key (now : Nat) (k : Nat × Nat) (items : List SileoItem)
    (timers : List TimerEntry) (hbase : hasKey timers k = false)
    (hitems : ∀ i ∈ items, timeoutKey i = k → eligDur i = none) :
    hasKey (scheduleItems now items timers) k = false := by
  unfold hasKey
  rw [List.any_eq_false]
  intro e he
  rcases scheduleItems_mem_src now items timers e he with h1 | ⟨j, hj, d, hd, rfl⟩
  · unfold hasKey at hbase
    rw [List.any_eq_false] at hbase
    exact hbase e h1
  · intro hk
    simp only [beq_iff_eq] at hk
    have hnone := hitems j hj (by simpa using hk)
    rw [hnone] at hd
    cases hd

/-! ## Adapter lemmas: the step function -/

theorem stepToaster_update_timers (now : Nat) (items : List SileoItem)
    (s : ToasterState) (hm : s.mounted = true) :
    (stepToaster now (.update items) s).1.timers
      = if s.hovering = true then
          s.timers.filter fun e => (items.map timeoutKey).contains e.key
        else
          scheduleItems now items
            (s.timers.filter fun e => (items.map timeoutKey).contains e.key) := by
  simp only [stepToaster, hm, Bool.not_true, Bool.false_eq_true, if_false]
  rw [watchPass_timers, syncLatest_timers]
  simp only [stepUpdate, schedule]
  by_cases hh : s.hovering = true
  · rw [if_pos hh, if_pos hh]
  · rw [if_neg hh, if_neg hh]

theorem stepToaster_emission (now : Nat) (ev : TEvent) (s : ToasterState)
    (t2 : Nat) (k2 : Nat × Nat) (hmem : (t2, k2) ∈ (stepToaster now ev s).2) :
    t2 = now ∧ ∃ e ∈ s.timers, e.key = k2 ∧ e.scheduledAt + e.dur ≤ now := by
  by_cases hm : s.mounted = true
  · cases ev with
    | fireTimer k =>
      simp only [stepToaster, hm, Bool.not_true, Bool.false_eq_true, if_false] at hmem
      by_cases hf : fireEnabled now k s = true
      · rw [if_pos hf] at hmem
        simp only [List.mem_singleton, Prod.mk.injEq] at hmem
        obtain ⟨rfl, rfl⟩ := hmem
        refine ⟨rfl, ?_⟩
        unfold fireEnabled at hf
        rw [List.any_eq_true] at hf
        obtain ⟨e, he, hcond⟩ := hf
        simp only [Bool.and_eq_true, beq_iff_eq, decide_eq_true_eq] at hcond
        exact ⟨e, he, hcond.1, hcond.2⟩
      · rw [if_neg hf] at hmem
        cases hmem
    | update items =>
      simp only [stepToaster, hm, Bool.not_true, Bool.false_eq_true, if_false] at hmem
      cases hmem
    | enter id =>
      simp only [stepToaster, hm, Bool.not_true, Bool.false_eq_true, if_false] at hmem
      cases hmem
    | leave id =>
      simp only [stepToaster, hm, Bool.not_true, Bool.false_eq_true, if_false] at hmem
      cases hmem
    | autoExpandFire id =>
      simp only [stepToaster, hm, Bool.not_true, Bool.false_eq_true, if_false] at hmem
      cases hmem
    | autoCollapseFire id =>
      simp only [stepToaster, hm, Bool.not_true, Bool.false_eq_true, if_false] at hmem
      cases hmem
    | unmount =>
      simp only [stepToaster, hm, Bool.not_true, Bool.false_eq_true, if_false] at hmem
      cases hmem
  · simp only [stepToaster, Bool.not_eq_true] at hmem
    rw [Bool.not_eq_true] at hm
    rw [hm] at hmem
    simp at hmem

theorem stepUpdate_vms (now : Nat) (items : List SileoItem) (s : ToasterState) :
    (stepUpdate now items s).vms = updateVms s.vms items := by
  simp only [stepUpdate, schedule]
  split <;> rfl

theorem stepUpdate_timers (now : Nat) (items : List SileoItem) (s : ToasterState) :
    (stepUpdate now items s).timers
      = if s.hovering = true then
          s.timers.filter fun e => (items.map timeoutKey).contains e.key
        else
          scheduleItems now items
            (s.timers.filter fun e => (items.map timeoutKey).contains e.key) := by
  simp only [stepUpdate, schedule]
  by_cases hh : s.hovering = true
  · rw [if_pos hh, if_pos hh]
  · rw [if_neg hh, if_neg hh]

theorem stepEnter_timers (id : Nat) (s : ToasterState) :
    (stepEnter id s).timers = s.timers ∨ (stepEnter id s).timers = [] := by
  unfold stepEnter
  split
  · dsimp only
    by_cases hh : s.hovering = true
    · left
      rw [if_pos hh]
    · right
      rw [if_neg hh]
  · left
    rfl

theorem stepEnter_vms_items (id : Nat) (s : ToasterState) :
    (stepEnter id s).vms.map Vm.item = s.vms.map Vm.item := by
  unfold stepEnter
  split
  · dsimp only
    split <;> exact map_items_of_item_preserving _ (fun vm => by split <;> rfl) _
  · rfl

theorem stepLeave_timers (now : Nat) (id : Nat) (s : ToasterState) :
    (stepLeave now id s).timers = s.timers
    ∨ (s.hovering = true
        ∧ (stepLeave now id s).timers = scheduleItems now (s.vms.map Vm.item) s.timers) := by
  unfold stepLeave
  split
  · dsimp only
    by_cases hh : s.hovering = true
    · right
      refine ⟨hh, ?_⟩
      rw [if_pos hh]
      simp only [schedule]
      rw [if_neg (by simp)]
    · left
      rw [if_neg hh]
  · left
    rfl

theorem stepLeave_vms_items (now : Nat) (id : Nat) (s : ToasterState) :
    (stepLeave now id s).vms.map Vm.item = s.vms.map Vm.item := by
  unfold stepLeave
  split
  · dsimp only
    by_cases hh : s.hovering = true
    · rw [if_pos hh]
      simp only [schedule]
      rw [if_neg (by simp)]
      exact map_items_of_item_preserving _ (fun vm => by split <;> rfl) _
    · rw [if_neg hh]
      exact map_items_of_item_preserving _ (fun vm => by split <;> rfl) _
  · rfl

theorem stepAutoExpandFire_timers (id : Nat) (s : ToasterState) :
    (stepAutoExpandFire id s).timers = s.timers := rfl

theorem stepAutoExpandFire_vms_items (id : Nat) (s : ToasterState) :
    (stepAutoExpandFire id s).vms.map Vm.item = s.vms.map Vm.item :=
  map_items_of_item_preserving _ (fun vm => by split <;> rfl) _

theorem stepAutoCollapseFire_timers (id : Nat) (s : ToasterState) :
    (stepAutoCollapseFire id s).timers = s.timers := rfl

theorem stepAutoCollapseFire_vms_items (id : Nat) (s : ToasterState) :
    (stepAutoCollapseFire id s).vms.map Vm.item = s.vms.map Vm.item :=
  map_items_of_item_preserving _ (fun vm => by split <;> rfl) _

/-! ## C1: the auto-dismiss timer invariant -/

theorem noTimerKey_wrap (k : Nat × Nat) (s : ToasterState) (h : NoTimerKey k s) :
    NoTimerKey k (watchPass (syncLatest s)) := by
  obtain ⟨h1, h2⟩ := h
  constructor
  · rw [watchPass_timers, syncLatest_timers]
    exact h1
  · intro vm hvm
    simp only [watchPass, List.mem_map] at hvm
    obtain ⟨u, hu, rfl⟩ := hvm
    rw [syncLatest_vms] at hu
    rw [watchVm_item]
    exact h2 u hu

theorem noKey_of_items (k : Nat × Nat) (l : List Vm)
    (h : ∀ vm ∈ l, timeoutKey vm.item = k → eligDur vm.item = none) :
    ∀ i ∈ l.map Vm.item, timeoutKey i = k → eligDur i = none := by
  intro i hi
  simp only [List.mem_map] at hi
  obtain ⟨u, hu, rfl⟩ := hi
  exact h u hu

theorem noKey_of_items_inv (k : Nat × Nat) (l : List Vm) (l2 : List SileoItem)
    (heq : l.map Vm.item = l2)
    (h : ∀ i ∈ l2, timeoutKey i = k → eligDur i = none) :
    ∀ vm ∈ l, timeoutKey vm.item = k → eligDur vm.item = none := by
  intro vm hvm
  exact h vm.item (heq ▸ List.mem_map_of_mem Vm.item hvm)

theorem noTimerKey_no_emission (k : Nat × Nat) (now : Nat) (ev : TEvent)
    (s : ToasterState) (htk : hasKey s.timers k = false) :
    ∀ t2, (t2, k) ∉ (stepToaster now ev s).2 := by
  intro t2 hmem
  obtain ⟨-, e, he, hek, -⟩ := stepToaster_emission now ev s t2 k hmem
  have hkey : hasKey s.timers k = true := by
    unfold hasKey
    rw [List.any_eq_true]
    exact ⟨e, he, by simp [hek]⟩
  rw [hkey] at htk
  cases htk

theorem noTimerKey_step (k : Nat × Nat) (now : Nat) (ev : TEvent) (s : ToasterState)
    (hkeep : ∀ items, ev = TEvent.update items →
      ∀ i ∈ items, timeoutKey i = k → eligDur i = none)
    (h : NoTimerKey k s) :
    NoTimerKey k (stepToaster now ev s).1 ∧ ∀ t2, (t2, k) ∉ (stepToaster now ev s).2 := by
  obtain ⟨htk, hvm⟩ := h
  refine ⟨?_, noTimerKey_no_emission k now ev s htk⟩
  by_cases hm : s.mounted = true
  · cases ev with
    | update items =>
      simp only [stepToaster, hm, Bool.not_true, Bool.false_eq_true, if_false]
      apply noTimerKey_wrap
      constructor
      · rw [stepUpdate_timers]
        split
        · exact hasKey_filter_false _ _ _ htk
        · exact scheduleItems_no_key now k items _ (hasKey_filter_false _ _ _ htk)
            (hkeep items rfl)
      · rw [stepUpdate_vms]
        exact noKey_of_items_inv k _ items (updateVms_items s.vms items) (hkeep items rfl)
    | enter id =>
      simp only [stepToaster, hm, Bool.not_true, Bool.false_eq_true, if_false]
      apply noTimerKey_wrap
      constructor
      · rcases stepEnter_timers id s with ht | ht
        · rw [ht]; exact htk
        · rw [ht]; rfl
      · exact noKey_of_items_inv k _ _ (stepEnter_vms_items id s)
          (noKey_of_items k s.vms hvm)
    | leave id =>
      simp only [stepToaster, hm, Bool.not_true, Bool.false_eq_true, if_false]
      apply noTimerKey_wrap
      constructor
      · rcases stepLeave_timers now id s with ht | ⟨-, ht⟩
        · rw [ht]; exact htk
        · rw [ht]
          exact scheduleItems_no_key now k _ _ htk (noKey_of_items k s.vms hvm)
      · exact noKey_of_items_inv k _ _ (stepLeave_vms_items now id s)
          (noKey_of_items k s.vms hvm)
    | fireTimer k2 =>
      simp only [stepToaster, hm, Bool.not_true, Bool.false_eq_true, if_false]
      split <;> exact noTimerKey_wrap k s ⟨htk, hvm⟩
    | autoExpandFire id =>
      simp only [stepToaster, hm, Bool.not_true, Bool.false_eq_true, if_false]
      apply noTimerKey_wrap
      constructor
      · rw [stepAutoExpandFire_timers]; exact htk
      · exact noKey_of_items_inv k _ _ (stepAutoExpandFire_vms_items id s)
          (noKey_of_items k s.vms hvm)
    | autoCollapseFire id =>
      simp only [stepToaster, hm, Bool.not_true, Bool.false_eq_true, if_false]
      apply noTimerKey_wrap
      constructor
      · rw [stepAutoCollapseFire_timers]; exact htk
      · exact noKey_of_items_inv k _ _ (stepAutoCollapseFire_vms_items id s)
          (noKey_of_items k s.vms hvm)
    | unmount =>
      simp only [stepToaster, hm, Bool.not_true, Bool.false_eq_true, if_false]
      exact ⟨rfl, hvm⟩
  · have hm2 : s.mounted = false := by
      revert hm
      cases s.mounted <;> simp
    have : (stepToaster now ev s).1 = s := by
      simp [stepToaster, hm2]
    rw [this]
    exact ⟨htk, hvm⟩

theorem noTimerKey_run (k : Nat × Nat) (s0 : ToasterState) (tr : List (Nat × TEvent))
    (h0 : NoTimerKey k s0) (htr : NeverEligibleInTrace k tr) :
    NoTimerKey k (runToaster s0 tr).1 ∧ ∀ t2, (t2, k) ∉ (runToaster s0 tr).2 := by
  induction tr generalizing s0 with
  | nil => exact ⟨h0, by simp [runToaster]⟩
  | cons e tr ih =>
    obtain ⟨now, ev⟩ := e
    have hstep := noTimerKey_step k now ev s0
      (fun items hev => htr (now, ev) (List.mem_cons_self _ _) items hev) h0
    have hrest := ih (stepToaster now ev s0).1 hstep.1
      (fun p hp => htr p (List.mem_cons_of_mem _ hp))
    refine ⟨hrest.1, ?_⟩
    intro t2 hmem
    simp only [runToaster, List.mem_append] at hmem
    rcases hmem with hcur | hcur
    · exact hstep.2 t2 hcur
    · exact hrest.2 t2 hcur

/-- C1: for a mounted, non-hovering adapter receiving a store notification,
every non-exiting toast with a resolved finite positive duration `d` and no
timer for its content key gets exactly one timer armed at the notification
time with duration `d` (which is positive); a dismissal request is only ever
emitted at or after an armed timer's deadline `scheduledAt + dur`, never
before; and for a key that is never auto-dismiss eligible (duration null or
≤ 0, modelling the spec's never-expire sentinel), no timer ever exists at
any point of any event trace and no dismissal request for it is ever
emitted. -/
theorem auto_dismiss_timer_spec
    (s : ToasterState) (items : List SileoItem) (i : SileoItem) (d : Int) (now : Nat)
    (k : Nat × Nat) (s0 : ToasterState) (tr : List (Nat × TEvent)) (n : Nat)
    (ev : TEvent) (t2 : Nat) (k2 : Nat × Nat)
    (hm : s.mounted = true) (hh : s.hovering = false)
    (hmem : i ∈ items) (helig : eligDur i = some d)
    (hfresh : hasKey s.timers (timeoutKey i) = false)
    (hnodup : (items.map timeoutKey).Nodup)
    (h0 : NoTimerKey k s0) (htr : NeverEligibleInTrace k tr) :
    (0 < d
      ∧ (⟨timeoutKey i, now, d.toNat⟩ : TimerEntry)
          ∈ (stepToaster now (.update items) s).1.timers
      ∧ ∀ e ∈ (stepToaster now (.update items) s).1.timers,
          e.key = timeoutKey i → e = ⟨timeoutKey i, now, d.toNat⟩)
    ∧ ((t2, k2) ∈ (stepToaster now ev s).2 →
        t2 = now ∧ ∃ e ∈ s.timers, e.key = k2 ∧ e.scheduledAt + e.dur ≤ now)
    ∧ NoTimerKey k (runToaster s0 (tr.take n)).1
    ∧ (∀ t3, (t3, k) ∉ (runToaster s0 tr).2) := by
  have hfilter : hasKey
      (s.timers.filter fun e => (items.map timeoutKey).contains e.key)
      (timeoutKey i) = false :=
    hasKey_filter_false _ _ _ hfresh
  have htchar := stepToaster_update_timers now items s hm
  rw [if_neg (by simp [hh])] at htchar
  refine ⟨⟨eligDur_pos i d helig, ?_, ?_⟩,
    fun hmem2 => stepToaster_emission now ev s t2 k2 hmem2, ?_,
    (noTimerKey_run k s0 tr h0 htr).2⟩
  · rw [htchar]
    exact scheduleItems_arms now i d helig items hmem hnodup _ hfilter
  · rw [htchar]
    exact scheduleItems_key_unique now i d helig items _ hmem hnodup hfilter
  · exact (noTimerKey_run k s0 (tr.take n) h0
      (fun p hp => htr p (List.take_subset n tr hp))).1

/-- Witness for C1: a 500 ms toast gets its timer at the notification time,
and the null-duration toast `itemB` never has a timer and never produces a
dismissal request across a trace including a firing timer. -/
theorem auto_dismiss_timer_spec_witness :
    eligDur itemA = some 500
    ∧ eligDur itemB = none
    ∧ (⟨timeoutKey itemA, 10, (500 : Int).toNat⟩ : TimerEntry)
        ∈ (stepToaster 10 (.update [itemA, itemB]) initToaster).1.timers
    ∧ NoTimerKey (1, 0)
        (runToaster initToaster
          ([(10, .update [itemA, itemB]), (600, .fireTimer (0, 0))].take 2)).1
    ∧ ∀ t3, (t3, ((1 : Nat), (0 : Nat)))
        ∉ (runToaster initToaster
            [(10, .update [itemA, itemB]), (600, .fireTimer (0, 0))]).2 := by
  have h0 : NoTimerKey (1, 0) initToaster := by
    refine ⟨rfl, ?_⟩
    intro vm h
    simp [initToaster] at h
  have htr : NeverEligibleInTrace (1, 0)
      [(10, .update [itemA, itemB]), (600, .fireTimer (0, 0))] := by
    intro p hp items hev i hi hk
    simp only [List.mem_cons, List.not_mem_nil, or_false] at hp
    rcases hp with rfl | rfl
    · simp only at hev
      cases hev
      simp only [List.mem_cons, List.not_mem_nil, or_false] at hi
      rcases hi with rfl | rfl
      · exact absurd hk (by decide)
      · decide
    · simp at hev
  obtain ⟨⟨-, hA2, -⟩, -, hC, hD⟩ :=
    auto_dismiss_timer_spec initToaster [itemA, itemB] itemA 500 10 (1, 0)
      initToaster [(10, .update [itemA, itemB]), (600, .fireTimer (0, 0))] 2
      (.update [itemA, itemB]) 0 (0, 0)
      rfl rfl (by decide) (by decide) rfl (by decide) h0 htr
  exact ⟨by decide, by decide, hA2, hC, hD⟩

/-! ## C4: hover suspension -/

theorem hoverCleared_wrap (s : ToasterState) (h : HoverCleared s) :
    HoverCleared (watchPass (syncLatest s)) := by
  intro hh
  rw [watchPass_timers, syncLatest_timers]
  rw [watchPass_hovering, syncLatest_hovering] at hh
  exact h hh

theorem stepUpdate_hovering (now : Nat) (items : List SileoItem) (s : ToasterState) :
    (stepUpdate now items s).hovering = s.hovering := by
  simp only [stepUpdate, schedule]
  split <;> rfl

theorem hoverCleared_stepUpdate (now : Nat) (items : List SileoItem) (s : ToasterState)
    (h : HoverCleared s) : HoverCleared (stepUpdate now items s) := by
  intro hh
  rw [stepUpdate_hovering] at hh
  rw [stepUpdate_timers, if_pos hh, h hh]
  rfl

theorem hoverCleared_stepEnter (id : Nat) (s : ToasterState) (h : HoverCleared s) :
    HoverCleared (stepEnter id s) := by
  unfold stepEnter
  split
  · dsimp only
    by_cases hh : s.hovering = true
    · rw [if_pos hh]
      intro _
      exact h hh
    · rw [if_neg hh]
      intro _
      rfl
  · exact h

theorem hoverCleared_stepLeave (now : Nat) (id : Nat) (s : ToasterState)
    (h : HoverCleared s) : HoverCleared (stepLeave now id s) := by
  unfold stepLeave
  split
  · dsimp only
    by_cases hh : s.hovering = true
    · rw [if_pos hh]
      simp only [schedule]
      rw [if_neg (by simp)]
      intro hfalse
      simp at hfalse
    · rw [if_neg hh]
      intro hh2
      exact absurd hh2 hh
  · exact h

theorem hoverCleared_step (now : Nat) (ev : TEvent) (s : ToasterState)
    (h : HoverCleared s) : HoverCleared (stepToaster now ev s).1 := by
  by_cases hm : s.mounted = true
  · cases ev with
    | update items =>
      simp only [stepToaster, hm, Bool.not_true, Bool.false_eq_true, if_false]
      exact hoverCleared_wrap _ (hoverCleared_stepUpdate now items s h)
    | enter id =>
      simp only [stepToaster, hm, Bool.not_true, Bool.false_eq_true, if_false]
      exact hoverCleared_wrap _ (hoverCleared_stepEnter id s h)
    | leave id =>
      simp only [stepToaster, hm, Bool.not_true, Bool.false_eq_true, if_false]
      exact hoverCleared_wrap _ (hoverCleared_stepLeave now id s h)
    | fireTimer k =>
      simp only [stepToaster, hm, Bool.not_true, Bool.false_eq_true, if_false]
      split <;> exact hoverCleared_wrap s h
    | autoExpandFire id =>
      simp only [stepToaster, hm, Bool.not_true, Bool.false_eq_true, if_false]
      exact hoverCleared_wrap _ h
    | autoCollapseFire id =>
      simp only [stepToaster, hm, Bool.not_true, Bool.false_eq_true, if_false]
      exact hoverCleared_wrap _ h
    | unmount =>
      simp only [stepToaster, hm, Bool.not_true, Bool.false_eq_true, if_false]
      intro _
      rfl
  · have hm2 : s.mounted = false := by
      revert hm
      cases s.mounted <;> simp
    have heq : (stepToaster now ev s).1 = s := by simp [stepToaster, hm2]
    rw [heq]
    exact h

theorem hoverCleared_run (tr : List (Nat × TEvent)) :
    HoverCleared (runToaster initToaster tr).1 := by
  suffices h : ∀ s0, HoverCleared s0 → HoverCleared (runToaster s0 tr).1 from
    h initToaster (fun _ => rfl)
  induction tr with
  | nil => intro s0 h; exact h
  | cons e tr ih =>
    intro s0 h
    obtain ⟨now, ev⟩ := e
    simp only [runToaster]
    exact ih _ (hoverCleared_step now ev s0 h)

theorem stepToaster_leave_timers (now : Nat) (id : Nat) (s : ToasterState)
    (hm : s.mounted = true) (hh : s.hovering = true)
    (hid : (s.vms.any fun vm => vm.item.id == id) = true) :
    (stepToaster now (.leave id) s).1.timers
      = scheduleItems now (s.vms.map Vm.item) s.timers := by
  simp only [stepToaster, hm, Bool.not_true, Bool.false_eq_true, if_false]
  rw [watchPass_timers, syncLatest_timers]
  unfold stepLeave
  rw [if_pos hid]
  dsimp only
  rw [if_pos hh]
  simp only [schedule]
  rw [if_neg (by simp)]

/-- C4: across every event trace from a freshly mounted adapter, whenever the
pointer is hovering the timer map is empty (all auto-dismiss timers cleared,
none scheduled); while hovering, a timer-fire event emits no dismissal
request; and the hover-exit handler immediately re-schedules the current
toast set from an empty map, each new timer stamped with the leave time and
the toast's full resolved duration — elapsed dwell time is never credited. -/
theorem hover_suspension_spec (tr : List (Nat × TEvent)) (s : ToasterState)
    (id : Nat) (k2 : Nat × Nat) (now : Nat)
    (hm : s.mounted = true) (hh : s.hovering = true) (ht : s.timers = [])
    (hid : (s.vms.any fun vm => vm.item.id == id) = true) :
    ((runToaster initToaster tr).1.hovering = true →
      (runToaster initToaster tr).1.timers = [])
    ∧ (stepToaster now (.fireTimer k2) s).2 = []
    ∧ (stepToaster now (.leave id) s).1.timers
        = scheduleItems now (s.vms.map Vm.item) []
    ∧ ∀ e ∈ (stepToaster now (.leave id) s).1.timers,
        e.scheduledAt = now ∧ ∃ i ∈ s.vms.map Vm.item, ∃ d, eligDur i = some d
          ∧ e.key = timeoutKey i ∧ e.dur = d.toNat ∧ 0 < d := by
  have hltimers : (stepToaster now (.leave id) s).1.timers
      = scheduleItems now (s.vms.map Vm.item) [] := by
    rw [stepToaster_leave_timers now id s hm hh hid, ht]
  refine ⟨hoverCleared_run tr, ?_, hltimers, ?_⟩
  · have hfe : fireEnabled now k2 s = false := by
      unfold fireEnabled
      rw [ht]
      rfl
    simp only [stepToaster, hm, Bool.not_true, Bool.false_eq_true, if_false]
    rw [if_neg (by simp [hfe])]
  · intro e he
    rw [hltimers] at he
    rcases scheduleItems_mem_src now _ [] e he with hnil | ⟨i, hi, d, hd, rfl⟩
    · cases hnil
    · exact ⟨rfl, i, hi, d, hd, rfl, rfl, eligDur_pos i d hd⟩

/-- Witness for C4: a trace that ends hovering has no timers, a fire event
emits nothing while hovering, and hover-exit restamps the full durations. -/
theorem hover_suspension_spec_witness :
    (runToaster initToaster [(0, .update [itemA]), (1, .enter 0)]).1.hovering = true
    ∧ (runToaster initToaster [(0, .update [itemA]), (1, .enter 0)]).1.timers = []
    ∧ (stepToaster 42 (.fireTimer (0, 0)) toasterHoverState).2 = []
    ∧ (stepToaster 42 (.leave 0) toasterHoverState).1.timers
        = scheduleItems 42 (toasterHoverState.vms.map Vm.item) []
    ∧ ∀ e ∈ (stepToaster 42 (.leave 0) toasterHoverState).1.timers,
        e.scheduledAt = 42 ∧ ∃ i ∈ toasterHoverState.vms.map Vm.item,
          ∃ d, eligDur i = some d ∧ e.key = timeoutKey i ∧ e.dur = d.toNat ∧ 0 < d := by
  obtain ⟨h1, h2, h3, h4⟩ :=
    hover_suspension_spec [(0, .update [itemA]), (1, .enter 0)] toasterHoverState
      0 (0, 0) 42 rfl rfl rfl (by decide)
  exact ⟨by decide, h1 (by decide), h2, h3, h4⟩

/-! ## C6: active tracking and single expansion -/

theorem latestNonExiting_none (l : List SileoItem) (h : latestNonExiting l = none) :
    ∀ t ∈ l, t.exiting = true := by
  induction l with
  | nil => intro t ht; cases ht
  | cons t ts ih =>
    intro u hu
    simp only [latestNonExiting] at h
    cases hl : latestNonExiting ts with
    | some v => rw [hl] at h; simp [Option.orElse] at h
    | none =>
      rw [hl] at h
      simp only [Option.orElse] at h
      rcases List.mem_cons.mp hu with rfl | hu2
      · by_cases he : u.exiting = true
        · exact he
        · rw [if_neg he] at h; cases h
      · exact ih hl u hu2

theorem latestInv_sync (s : ToasterState) : LatestInv (syncLatest s) := by
  unfold LatestInv
  simp only [syncLatest]
  by_cases hc : (latestNonExiting (s.vms.map Vm.item) == s.latestId) = true
  · rw [if_pos hc]
    exact (beq_iff_eq.mp hc).symm
  · rw [if_neg hc]

theorem latestInv_watchPass (s : ToasterState) (h : LatestInv s) :
    LatestInv (watchPass s) := by
  unfold LatestInv at *
  rw [watchPass_latestId, watchPass_items]
  exact h

theorem activeNone_sync (s : ToasterState) (h : ActiveNoneInv s) :
    ActiveNoneInv (syncLatest s) := by
  unfold ActiveNoneInv at *
  simp only [syncLatest]
  by_cases hc : (latestNonExiting (s.vms.map Vm.item) == s.latestId) = true
  · rw [if_pos hc]
    exact h
  · rw [if_neg hc]
    intro hact
    exact hact

theorem activeNone_watchPass (s : ToasterState) (h : ActiveNoneInv s) :
    ActiveNoneInv (watchPass s) := fun hx => h hx

theorem watchVm_open (a : Option Nat) (vm : Vm) (h : vmOpen (watchVm a vm) = true) :
    vm.item.exiting = false ∧ canExpand a vm.item.id = true := by
  unfold watchVm at h
  split at h
  · rename_i hnd
    exfalso
    rw [Bool.not_eq_true'] at hnd
    unfold vmOpen at h
    simp only [Bool.and_eq_true] at h
    rw [hnd] at h
    simp at h
  · split at h
    · exfalso
      unfold vmOpen at h
      simp at h
    · rename_i hcond
      simp only [Bool.or_eq_true, not_or, Bool.not_eq_true, Bool.not_eq_false] at hcond
      refine ⟨hcond.1, ?_⟩
      have h2 := hcond.2
      rw [Bool.not_eq_false'] at h2
      unfold allowExpand at h2
      simp only [Bool.and_eq_true] at h2
      exact h2.2

theorem watchPass_openActive (s : ToasterState) (ha : ActiveNoneInv s)
    (hl : LatestInv s) : OpenActiveInv (watchPass s) := by
  intro vm hvm hopen
  simp only [watchPass, List.mem_map] at hvm
  obtain ⟨u, hu, rfl⟩ := hvm
  obtain ⟨hex, hce⟩ := watchVm_open s.activeId u hopen
  rw [watchPass_activeId, watchVm_item]
  cases hact : s.activeId with
  | none =>
    exfalso
    have h1 : s.latestId = none := ha hact
    have h2 : latestNonExiting (s.vms.map Vm.item) = none := by rw [← hl]; exact h1
    have h3 := latestNonExiting_none _ h2 u.item (List.mem_map_of_mem _ hu)
    rw [h3] at hex
    cases hex
  | some a =>
    unfold canExpand at hce
    rw [hact] at hce
    simp only [Option.isNone_some, Bool.false_or, beq_iff_eq] at hce
    exact hce

theorem vmIdsNodup_of_items (t s : ToasterState)
    (heq : t.vms.map Vm.item = s.vms.map Vm.item) (h : VmIdsNodup s) : VmIdsNodup t := by
  unfold VmIdsNodup at *
  have h1 : t.vms.map (fun vm => vm.item.id) = (t.vms.map Vm.item).map SileoItem.id := by
    rw [List.map_map]; rfl
  have h2 : s.vms.map (fun vm => vm.item.id) = (s.vms.map Vm.item).map SileoItem.id := by
    rw [List.map_map]; rfl
  rw [h1, heq, ← h2]
  exact h

theorem vmIdsNodup_of_ids (t : ToasterState) (items : List SileoItem)
    (heq : t.vms.map Vm.item = items) (h : (items.map SileoItem.id).Nodup) :
    VmIdsNodup t := by
  unfold VmIdsNodup
  have h1 : t.vms.map (fun vm => vm.item.id) = (t.vms.map Vm.item).map SileoItem.id := by
    rw [List.map_map]; rfl
  rw [h1, heq]
  exact h

theorem wrap_items (t : ToasterState) :
    (watchPass (syncLatest t)).vms.map Vm.item = t.vms.map Vm.item := by
  rw [watchPass_items, syncLatest_vms]

theorem stepUpdate_activeId (now : Nat) (items : List SileoItem) (s : ToasterState) :
    (stepUpdate now items s).activeId = s.activeId := by
  simp only [stepUpdate, schedule]
  split <;> rfl

theorem stepUpdate_latestId (now : Nat) (items : List SileoItem) (s : ToasterState) :
    (stepUpdate now items s).latestId = s.latestId := by
  simp only [stepUpdate, schedule]
  split <;> rfl

theorem stepEnter_latestId (id : Nat) (s : ToasterState) :
    (stepEnter id s).latestId = s.latestId := by
  unfold stepEnter
  split
  · dsimp only
    split <;> rfl
  · rfl

theorem stepEnter_activeId (id : Nat) (s : ToasterState)
    (hid : (s.vms.any fun vm => vm.item.id == id) = true) :
    (stepEnter id s).activeId = some id := by
  unfold stepEnter
  rw [if_pos hid]
  dsimp only
  split <;> rfl

theorem stepLeave_latestId (now : Nat) (id : Nat) (s : ToasterState) :
    (stepLeave now id s).latestId = s.latestId := by
  unfold stepLeave
  split
  · dsimp only
    by_cases hh : s.hovering = true
    · rw [if_pos hh]
      simp only [schedule]
      rw [if_neg (by simp)]
    · rw [if_neg hh]
  · rfl

theorem stepLeave_activeId (now : Nat) (id : Nat) (s : ToasterState)
    (hid : (s.vms.any fun vm => vm.item.id == id) = true) :
    (stepLeave now id s).activeId = s.latestId := by
  unfold stepLeave
  rw [if_pos hid]
  dsimp only
  by_cases hh : s.hovering = true
  · rw [if_pos hh]
    simp only [schedule]
    rw [if_neg (by simp)]
  · rw [if_neg hh]

theorem activeNone_stepEnter (id : Nat) (s : ToasterState) (h : ActiveNoneInv s) :
    ActiveNoneInv (stepEnter id s) := by
  unfold stepEnter
  split
  · dsimp only
    split
    · intro hact; cases hact
    · intro hact; cases hact
  · exact h

theorem activeNone_stepLeave (now : Nat) (id : Nat) (s : ToasterState)
    (h : ActiveNoneInv s) : ActiveNoneInv (stepLeave now id s) := by
  unfold stepLeave
  split
  · dsimp only
    by_cases hh : s.hovering = true
    · rw [if_pos hh]
      simp only [schedule]
      rw [if_neg (by simp)]
      intro hact
      exact hact
    · rw [if_neg hh]
      intro hact
      exact hact
  · exact h

theorem toasterInv_step (now : Nat) (ev : TEvent) (s : ToasterState)
    (hids : ∀ items, ev = TEvent.update items → (items.map SileoItem.id).Nodup)
    (h : ActiveNoneInv s ∧ LatestInv s ∧ VmIdsNodup s ∧ OpenActiveInv s) :
    ActiveNoneInv (stepToaster now ev s).1 ∧ LatestInv (stepToaster now ev s).1
      ∧ VmIdsNodup (stepToaster now ev s).1 ∧ OpenActiveInv (stepToaster now ev s).1 := by
  obtain ⟨ha, hl, hn, ho⟩ := h
  by_cases hm : s.mounted = true
  · have wrapInv : ∀ t : ToasterState, ActiveNoneInv t →
        ActiveNoneInv (watchPass (syncLatest t)) ∧ LatestInv (watchPass (syncLatest t))
          ∧ OpenActiveInv (watchPass (syncLatest t)) := by
      intro t hat
      exact ⟨activeNone_watchPass _ (activeNone_sync t hat),
        latestInv_watchPass _ (latestInv_sync t),
        watchPass_openActive _ (activeNone_sync t hat) (latestInv_sync t)⟩
    cases ev with
    | update items =>
      simp only [stepToaster, hm, Bool.not_true, Bool.false_eq_true, if_false]
      have hat : ActiveNoneInv (stepUpdate now items s) := by
        intro hact
        rw [stepUpdate_activeId] at hact
        rw [stepUpdate_latestId]
        exact ha hact
      obtain ⟨w1, w2, w3⟩ := wrapInv _ hat
      refine ⟨w1, w2, ?_, w3⟩
      refine vmIdsNodup_of_ids _ items ?_ (hids items rfl)
      rw [wrap_items, stepUpdate_vms, updateVms_items]
    | enter id =>
      simp only [stepToaster, hm, Bool.not_true, Bool.false_eq_true, if_false]
      obtain ⟨w1, w2, w3⟩ := wrapInv _ (activeNone_stepEnter id s ha)
      refine ⟨w1, w2, ?_, w3⟩
      refine vmIdsNodup_of_items _ s ?_ hn
      rw [wrap_items, stepEnter_vms_items]
    | leave id =>
      simp only [stepToaster, hm, Bool.not_true, Bool.false_eq_true, if_false]
      obtain ⟨w1, w2, w3⟩ := wrapInv _ (activeNone_stepLeave now id s ha)
      refine ⟨w1, w2, ?_, w3⟩
      refine vmIdsNodup_of_items _ s ?_ hn
      rw [wrap_items, stepLeave_vms_items]
    | fireTimer k =>
      simp only [stepToaster, hm, Bool.not_true, Bool.false_eq_true, if_false]
      obtain ⟨w1, w2, w3⟩ := wrapInv s ha
      have hnw : VmIdsNodup (watchPass (syncLatest s)) := by
        refine vmIdsNodup_of_items _ s ?_ hn
        rw [wrap_items]
      split <;> exact ⟨w1, w2, hnw, w3⟩
    | autoExpandFire id =>
      simp only [stepToaster, hm, Bool.not_true, Bool.false_eq_true, if_false]
      obtain ⟨w1, w2, w3⟩ := wrapInv (stepAutoExpandFire id s) (fun hx => ha hx)
      refine ⟨w1, w2, ?_, w3⟩
      refine vmIdsNodup_of_items _ s ?_ hn
      rw [wrap_items, stepAutoExpandFire_vms_items]
    | autoCollapseFire id =>
      simp only [stepToaster, hm, Bool.not_true, Bool.false_eq_true, if_false]
      obtain ⟨w1, w2, w3⟩ := wrapInv (stepAutoCollapseFire id s) (fun hx => ha hx)
      refine ⟨w1, w2, ?_, w3⟩
      refine vmIdsNodup_of_items _ s ?_ hn
      rw [wrap_items, stepAutoCollapseFire_vms_items]
    | unmount =>
      simp only [stepToaster, hm, Bool.not_true, Bool.false_eq_true, if_false]
      exact ⟨fun hx => ha hx, hl, hn, fun vm hvm hop => ho vm hvm hop⟩
  · have hm2 : s.mounted = false := by
      revert hm
      cases s.mounted <;> simp
    have heq : (stepToaster now ev s).1 = s := by simp [stepToaster, hm2]
    rw [heq]
    exact ⟨ha, hl, hn, ho⟩

theorem toasterInv_run (tr : List (Nat × TEvent)) :
    ∀ s0, (∀ p ∈ tr, ∀ items, p.2 = TEvent.update items →
      (items.map SileoItem.id).Nodup) →
      ActiveNoneInv s0 ∧ LatestInv s0 ∧ VmIdsNodup s0 ∧ OpenActiveInv s0 →
      ActiveNoneInv (runToaster s0 tr).1 ∧ LatestInv (runToaster s0 tr).1
        ∧ VmIdsNodup (runToaster s0 tr).1 ∧ OpenActiveInv (runToaster s0 tr).1 := by
  induction tr with
  | nil => intro s0 _ h; exact h
  | cons e tr ih =>
    intro s0 hids h
    obtain ⟨now, ev⟩ := e
    simp only [runToaster]
    exact ih _ (fun p hp => hids p (List.mem_cons_of_mem _ hp))
      (toasterInv_step now ev s0
        (fun items hev => hids (now, ev) (List.mem_cons_self _ _) items hev) h)

theorem countP_open_le_one (a : Nat) (l : List Vm)
    (hnodup : (l.map fun vm => vm.item.id).Nodup)
    (hall : ∀ vm ∈ l, vmOpen vm = true → vm.item.id = a) :
    l.countP vmOpen ≤ 1 := by
  induction l with
  | nil => simp
  | cons vm rest ih =>
    simp only [List.map_cons, List.nodup_cons] at hnodup
    by_cases hop : vmOpen vm = true
    · have hid : vm.item.id = a := hall vm (List.mem_cons_self _ _) hop
      have hrest : rest.countP vmOpen = 0 := by
        rw [List.countP_eq_zero]
        intro u hu hou
        have hua : u.item.id = a := hall u (List.mem_cons_of_mem _ hu) hou
        apply hnodup.1
        rw [hid, ← hua]
        exact List.mem_map_of_mem _ hu
      rw [List.countP_cons, hrest, if_pos hop]
    · rw [List.countP_cons, if_neg hop]
      have := ih hnodup.2 (fun u hu => hall u (List.mem_cons_of_mem _ hu))
      omega

theorem openActive_count (s : ToasterState) (hn : VmIdsNodup s) (ho : OpenActiveInv s) :
    s.vms.countP vmOpen ≤ 1 := by
  cases hact : s.activeId with
  | none =>
    have hz : s.vms.countP vmOpen = 0 := by
      rw [List.countP_eq_zero]
      intro vm hvm hop
      have hcontra := ho vm hvm hop
      rw [hact] at hcontra
      cases hcontra
    omega
  | some a =>
    apply countP_open_le_one a s.vms hn
    intro vm hvm hop
    have hsome := ho vm hvm hop
    rw [hact] at hsome
    exact (Option.some.inj hsome).symm

theorem stepToaster_enter_activeId (now id : Nat) (s : ToasterState)
    (hm : s.mounted = true) (hl : LatestInv s)
    (hid : (s.vms.any fun vm => vm.item.id == id) = true) :
    (stepToaster now (.enter id) s).1.activeId = some id := by
  simp only [stepToaster, hm, Bool.not_true, Bool.false_eq_true, if_false]
  rw [watchPass_activeId]
  have hsync : latestNonExiting ((stepEnter id s).vms.map Vm.item)
      = (stepEnter id s).latestId := by
    rw [stepEnter_vms_items, stepEnter_latestId]
    exact hl.symm
  simp only [syncLatest]
  rw [hsync, if_pos (by simp)]
  exact stepEnter_activeId id s hid

theorem stepToaster_leave_activeId (now id : Nat) (s : ToasterState)
    (hm : s.mounted = true) (hl : LatestInv s)
    (hid : (s.vms.any fun vm => vm.item.id == id) = true) :
    (stepToaster now (.leave id) s).1.activeId = s.latestId := by
  simp only [stepToaster, hm, Bool.not_true, Bool.false_eq_true, if_false]
  rw [watchPass_activeId]
  have hsync : latestNonExiting ((stepLeave now id s).vms.map Vm.item)
      = (stepLeave now id s).latestId := by
    rw [stepLeave_vms_items, stepLeave_latestId]
    exact hl.symm
  simp only [syncLatest]
  rw [hsync, if_pos (by simp)]
  exact stepLeave_activeId now id s hid

/-- C6: under the adapters' active tracking, along every event trace whose
store notifications carry duplicate-free ids, at most one rendered toast is
open at a time; every open toast is the active one; the stored latest id is
always the most recently created non-exiting toast; and hovering a rendered
toast makes it the active toast while hover-exit reverts to the latest
one. -/
theorem single_expanded_toast (tr : List (Nat × TEvent)) (s : ToasterState)
    (id now : Nat)
    (hids : ∀ p ∈ tr, ∀ items, p.2 = TEvent.update items →
      (items.map SileoItem.id).Nodup)
    (hm : s.mounted = true) (hl : LatestInv s)
    (hid : (s.vms.any fun vm => vm.item.id == id) = true) :
    (runToaster initToaster tr).1.vms.countP vmOpen ≤ 1
    ∧ OpenActiveInv (runToaster initToaster tr).1
    ∧ LatestInv (runToaster initToaster tr).1
    ∧ (stepToaster now (.enter id) s).1.activeId = some id
    ∧ (stepToaster now (.leave id) s).1.activeId = s.latestId := by
  have hinit : ActiveNoneInv initToaster ∧ LatestInv initToaster
      ∧ VmIdsNodup initToaster ∧ OpenActiveInv initToaster := by
    refine ⟨fun _ => rfl, rfl, by simp [VmIdsNodup, initToaster], ?_⟩
    intro vm hvm
    simp [initToaster] at hvm
  obtain ⟨-, hlr, hnr, hor⟩ := toasterInv_run tr initToaster hids hinit
  exact ⟨openActive_count _ hnr hor, hor, hlr,
    stepToaster_enter_activeId now id s hm hl hid,
    stepToaster_leave_activeId now id s hm hl hid⟩

/-- Witness for C6: a trace showing two toasts where the autopilot expands
one, with hover enter and exit on a concrete state. -/
theorem single_expanded_toast_witness :
    (runToaster initToaster [(0, .update [itemB, itemA]), (1, .enter 0)]).1.vms.countP
        vmOpen ≤ 1
    ∧ (stepToaster 5 (.enter 0) toasterHoverState).1.activeId = some 0
    ∧ (stepToaster 5 (.leave 0) toasterHoverState).1.activeId
        = toasterHoverState.latestId := by
  have hids : ∀ p ∈ [((0 : Nat), TEvent.update [itemB, itemA]),
      ((1 : Nat), TEvent.enter 0)], ∀ items,
      p.2 = TEvent.update items → (items.map SileoItem.id).Nodup := by
    intro p hp items hev
    simp only [List.mem_cons, List.not_mem_nil, or_false] at hp
    rcases hp with rfl | rfl
    · simp only at hev
      cases hev
      decide
    · simp at hev
  obtain ⟨h1, -, -, h4, h5⟩ :=
    single_expanded_toast [(0, .update [itemB, itemA]), (1, .enter 0)]
      toasterHoverState 0 5 hids rfl (by unfold LatestInv; decide) (by decide)
  exact ⟨h1, h4, h5⟩

end Sileo

